import Mathlib

/-!
Verification development for the Query Analysis & Evaluation Engine of the
Text-to-NoSQL benchmark repository (src/metric/utils/*).

The Python sources are shallowly embedded:
* strings are scanned by hand-written total functions that mirror the
  specific `re` patterns and `str` operations used by the code;
* JSON-like values (query payloads, execution results) are the inductive
  type `JVal`;
* the environment (MongoDB shell subprocess, `json.loads`, per-database
  schema files) is abstracted as function parameters, since it is outside
  the repository.
-/

/- ## Python character classes and basic string operations -/

/-- Python regex `\w` (ASCII part): letters, digits, underscore. -/
def isWordChar (c : Char) : Bool := c.isAlphanum || c == '_'

/-- Python regex `\s` / `str.strip` whitespace (ASCII part). -/
def isPySpace (c : Char) : Bool :=
  c == ' ' || c == '\t' || c == '\n' || c == '\r' || c == '\x0b' || c == '\x0c'

/-- Python `str.strip()` on a character list. -/
def stripChars (l : List Char) : List Char :=
  ((l.dropWhile isPySpace).reverse.dropWhile isPySpace).reverse

/-- Python `s.strip()`. -/
def pyStrip (s : String) : String := String.mk (stripChars s.data)

/-- `lstartsWith p l` : the list `l` starts with the pattern `p`
(Python `str.startswith` on explicit character lists). -/
def lstartsWith : List Char → List Char → Bool
  | [], _ => true
  | _ :: _, [] => false
  | p :: ps, c :: cs => p == c && lstartsWith ps cs

/-- Python substring test `pat in s` on character lists. -/
def containsSub (pat : List Char) : List Char → Bool
  | [] => lstartsWith pat []
  | c :: cs => lstartsWith pat (c :: cs) || containsSub pat cs

/-- Python substring test `pat in s` on strings. -/
def strContains (pat s : String) : Bool := containsSub pat.data s.data

/-- One pass of `re.sub(r'\s+', ' ', ...)`: collapse every whitespace run to a
single space.  The boolean state records whether the previous character was
part of a whitespace run. -/
def collapseWsAux : List Char → Bool → List Char
  | [], _ => []
  | c :: rest, inRun =>
    if isPySpace c then
      if inRun then collapseWsAux rest true
      else ' ' :: collapseWsAux rest true
    else c :: collapseWsAux rest false

/-- `_deal_query` (metric.py) and `_norm_ws` (metric2.py):
`re.sub(r'\s+', ' ', query.strip())`. -/
def normWs (s : String) : String := String.mk (collapseWsAux (stripChars s.data) false)

/-- Python `str.strip("$")`: drop every leading and trailing `'$'`. -/
def stripDollars (s : String) : String :=
  String.mk (((s.data.dropWhile (· == '$')).reverse.dropWhile (· == '$')).reverse)

/-- Python `str.rstrip(";")`: drop every trailing `';'`. -/
def rstripSemi (s : String) : String :=
  String.mk ((s.data.reverse.dropWhile (· == ';')).reverse)

/- ## The document model

`JVal` is the tree of values produced by `json.loads` / `demjson.decode` and
handed around by the metric code: JSON objects (Python `dict`, association
list with unique keys in any well-formed value), arrays (`list`), and scalar
leaves. -/

inductive JVal where
  | str (s : String)
  | num (n : Int)
  | bool (b : Bool)
  | null
  | arr (elems : List JVal)
  | obj (entries : List (String × JVal))

/-- Python `d[k]` on the association-list model of a dict. -/
def lookupJ : List (String × JVal) → String → Option JVal
  | [], _ => none
  | (k, v) :: rest, key => if k = key then some v else lookupJ rest key

theorem sizeOf_lookupJ {l : List (String × JVal)} {k : String} {v : JVal}
    (h : lookupJ l k = some v) : sizeOf v < sizeOf l := by
  induction l with
  | nil => simp [lookupJ] at h
  | cons hd tl ih =>
    obtain ⟨k0, v0⟩ := hd
    by_cases hk : k0 = k
    · simp [lookupJ, hk] at h
      subst h
      simp
      omega
    · simp [lookupJ, hk] at h
      have := ih h
      simp
      omega

/-- Keys of a dict, in insertion order. -/
def keysOf (l : List (String × JVal)) : List String := l.map Prod.fst

/-- Python `set(val1.keys()) == set(val2.keys())`. -/
def sameKeySet (a b : List (String × JVal)) : Bool :=
  (keysOf a).all (fun k => (keysOf b).contains k) &&
  (keysOf b).all (fun k => (keysOf a).contains k)

mutual
/-- `QueryComparator._compare_values` (metric.py 69-80) and
`QueryComparator._deep_equal` (metric2.py 320-331): recursive deep equality.
Dicts: equal key sets, then compare per key of the first dict; lists:
equal lengths, then pairwise in order; otherwise the plain Python
`val1 == val2`.  Python's `bool` is an `int` subtype, so the fallback
evaluates `1 == True` and `0 == False` to `True`: the num/bool cells
record that.  Every other cross-type pair compares unequal in Python.
(The `none` branch of the key lookup is unreachable when the key sets
are equal, which `&&` guarantees at every call site in the code.) -/
def deep_equal : JVal → JVal → Bool
  | .obj a, .obj b => sameKeySet a b && deepEqFields a b
  | .arr a, .arr b => deepEqList a b
  | .str a, .str b => a == b
  | .num a, .num b => a == b
  | .bool a, .bool b => a == b
  | .num a, .bool b => a == (if b then (1 : Int) else 0)
  | .bool a, .num b => (if a then (1 : Int) else 0) == b
  | .null, .null => true
  | _, _ => false
termination_by a b => sizeOf a + sizeOf b

/-- The list branch of `_compare_values`: pairwise over `zip` after a length
check. -/
def deepEqList : List JVal → List JVal → Bool
  | [], [] => true
  | x :: xs, y :: ys => deep_equal x y && deepEqList xs ys
  | _ :: _, [] => false
  | [], _ :: _ => false
termination_by a b => sizeOf a + sizeOf b

/-- The dict branch of `_compare_values`:
`all(compare(val1[k], val2[k]) for k in val1)`. -/
def deepEqFields : List (String × JVal) → List (String × JVal) → Bool
  | [], _ => true
  | (k, v) :: rest, b =>
    (match hlk : lookupJ b k with
     | some w => deep_equal v w
     | none => false) && deepEqFields rest b
termination_by a b => sizeOf a + sizeOf b
decreasing_by
  all_goals simp_wf
  all_goals try omega
  all_goals (have h := sizeOf_lookupJ hlk; omega)
end

/- Well-formedness: every object of the tree has duplicate-free keys.
Every value that comes out of a Python `dict` satisfies this. -/

def nodupKeysB : List String → Bool
  | [] => true
  | k :: rest => !(rest.contains k) && nodupKeysB rest

mutual
/-- Well-formed value: object keys are duplicate-free, recursively. -/
def wfB : JVal → Bool
  | .obj l => nodupKeysB (keysOf l) && wfFieldsB l
  | .arr l => wfListB l
  | _ => true

def wfListB : List JVal → Bool
  | [] => true
  | x :: xs => wfB x && wfListB xs

def wfFieldsB : List (String × JVal) → Bool
  | [] => true
  | (_, v) :: rest => wfB v && wfFieldsB rest
end

/- ## Basic lemmas about the dict model and `deep_equal` -/

theorem mem_of_lookupJ {l : List (String × JVal)} {k : String} {v : JVal}
    (h : lookupJ l k = some v) : (k, v) ∈ l := by
  induction l with
  | nil => simp [lookupJ] at h
  | cons hd tl ih =>
    obtain ⟨k0, v0⟩ := hd
    by_cases hk : k0 = k
    · simp [lookupJ, hk] at h
      simp [hk, h]
    · simp [lookupJ, hk] at h
      exact List.mem_cons_of_mem _ (ih h)

@[simp] theorem keysOf_nil : keysOf [] = [] := rfl

@[simp] theorem keysOf_cons (k : String) (v : JVal) (l : List (String × JVal)) :
    keysOf ((k, v) :: l) = k :: keysOf l := rfl

theorem mem_keysOf_of_mem {l : List (String × JVal)} {k : String} {v : JVal}
    (h : (k, v) ∈ l) : k ∈ keysOf l := List.mem_map_of_mem Prod.fst h

theorem lookupJ_of_mem {l : List (String × JVal)} {k : String} {v : JVal}
    (hnd : nodupKeysB (keysOf l) = true) (h : (k, v) ∈ l) : lookupJ l k = some v := by
  induction l with
  | nil => simp at h
  | cons hd tl ih =>
    obtain ⟨k0, v0⟩ := hd
    rw [keysOf_cons, nodupKeysB, Bool.and_eq_true] at hnd
    obtain ⟨hc, hnd2⟩ := hnd
    rcases List.mem_cons.mp h with h0 | h0
    · obtain ⟨h1, h2⟩ := Prod.mk.injEq .. ▸ h0
      simp [lookupJ, h1, h2]
    · have hmem : k ∈ keysOf tl := mem_keysOf_of_mem h0
      have hne : k0 ≠ k := by
        intro he
        subst he
        rw [Bool.not_eq_true', ← Bool.not_eq_true] at hc
        exact hc (by simpa [List.contains] using hmem)
      simp only [lookupJ, hne, if_false]
      exact ih hnd2 h0

theorem lookupJ_isSome_of_mem_keys {l : List (String × JVal)} {k : String}
    (h : k ∈ keysOf l) : ∃ v, lookupJ l k = some v := by
  induction l with
  | nil => simp [keysOf] at h
  | cons hd tl ih =>
    obtain ⟨k0, v0⟩ := hd
    by_cases hk : k0 = k
    · exact ⟨v0, by simp [lookupJ, hk]⟩
    · simp [keysOf, hk] at h
      rcases h with h | h
      · exact absurd h.symm hk
      · obtain ⟨v, hv⟩ := ih (by simpa [keysOf] using h)
        exact ⟨v, by simp [lookupJ, hk, hv]⟩

theorem keys_mem_of_lookupJ {l : List (String × JVal)} {k : String} {v : JVal}
    (h : lookupJ l k = some v) : k ∈ keysOf l := by
  have := mem_of_lookupJ h
  exact List.mem_map_of_mem Prod.fst this

theorem sameKeySet_iff {a b : List (String × JVal)} :
    sameKeySet a b = true ↔ (∀ k, k ∈ keysOf a ↔ k ∈ keysOf b) := by
  unfold sameKeySet
  rw [Bool.and_eq_true, List.all_eq_true, List.all_eq_true]
  constructor
  · rintro ⟨h1, h2⟩ k
    constructor
    · intro hk
      have := h1 k hk
      simpa [List.contains] using this
    · intro hk
      have := h2 k hk
      simpa [List.contains] using this
  · intro h
    refine ⟨fun k hk => ?_, fun k hk => ?_⟩
    · simpa [List.contains] using (h k).mp hk
    · simpa [List.contains] using (h k).mpr hk

theorem deepEqFields_iff {a b : List (String × JVal)} :
    deepEqFields a b = true ↔
      ∀ p ∈ a, ∃ w, lookupJ b p.1 = some w ∧ deep_equal p.2 w = true := by
  induction a with
  | nil => simp [deepEqFields]
  | cons hd tl ih =>
    obtain ⟨k, v⟩ := hd
    rw [deepEqFields, Bool.and_eq_true, ih]
    constructor
    · rintro ⟨h1, h2⟩ p hp
      rcases List.mem_cons.mp hp with h0 | h0
      · subst h0
        rcases hw : lookupJ b k with _ | w
        · rw [hw] at h1; simp at h1
        · rw [hw] at h1
          exact ⟨w, rfl, h1⟩
      · exact h2 p h0
    · intro h
      constructor
      · obtain ⟨w, hw, he⟩ := h (k, v) (List.mem_cons_self _ _)
        simp only at hw
        rw [hw]
        exact he
      · exact fun p hp => h p (List.mem_cons_of_mem _ hp)

theorem sizeOf_lt_of_mem_arrList {x : JVal} {l : List JVal} (h : x ∈ l) :
    sizeOf x < sizeOf l := List.sizeOf_lt_of_mem h

theorem sizeOf_snd_lt_of_mem_objList {k : String} {v : JVal}
    {l : List (String × JVal)} (h : (k, v) ∈ l) : sizeOf v < sizeOf l := by
  have h1 : sizeOf (k, v) < sizeOf l := List.sizeOf_lt_of_mem h
  simp at h1
  omega

theorem wfListB_mem {l : List JVal} (hw : wfListB l = true) {x : JVal}
    (h : x ∈ l) : wfB x = true := by
  induction l with
  | nil => simp at h
  | cons hd tl ih =>
    rw [wfListB, Bool.and_eq_true] at hw
    rcases List.mem_cons.mp h with h0 | h0
    · exact h0 ▸ hw.1
    · exact ih hw.2 h0

theorem wfFieldsB_mem {l : List (String × JVal)} (hw : wfFieldsB l = true)
    {k : String} {v : JVal} (h : (k, v) ∈ l) : wfB v = true := by
  induction l with
  | nil => simp at h
  | cons hd tl ih =>
    obtain ⟨k0, v0⟩ := hd
    rw [wfFieldsB, Bool.and_eq_true] at hw
    rcases List.mem_cons.mp h with h0 | h0
    · obtain ⟨_, h2⟩ := Prod.mk.injEq .. ▸ h0
      exact h2 ▸ hw.1
    · exact ih hw.2 h0

/-- `_compare_values` is reflexive on well-formed values (duplicate-free
object keys). -/
theorem deep_equal_refl : ∀ v : JVal, wfB v = true → deep_equal v v = true := by
  have H : ∀ n : Nat, ∀ v : JVal, sizeOf v ≤ n → wfB v = true →
      deep_equal v v = true := by
    intro n
    induction n with
    | zero =>
      intro v hsz
      exact absurd hsz (by cases v <;> simp <;> omega)
    | succ n ih =>
      intro v hsz hwf
      cases v with
      | str s => simp [deep_equal]
      | num m => simp [deep_equal]
      | bool b => simp [deep_equal]
      | null => simp [deep_equal]
      | arr l =>
        rw [deep_equal]
        rw [wfB] at hwf
        have : ∀ m : List JVal, (∀ x ∈ m, x ∈ l) → deepEqList m m = true := by
          intro m
          induction m with
          | nil => simp [deepEqList]
          | cons hd tl ihm =>
            intro hsub
            rw [deepEqList, Bool.and_eq_true]
            have hmem : hd ∈ l := hsub hd (List.mem_cons_self _ _)
            refine ⟨?_, ihm (fun x hx => hsub x (List.mem_cons_of_mem _ hx))⟩
            have hx : sizeOf hd < sizeOf l := sizeOf_lt_of_mem_arrList hmem
            have hl : sizeOf l < sizeOf (JVal.arr l) := by simp
            exact ih hd (by omega) (wfListB_mem hwf hmem)
        exact this l (fun x hx => hx)
      | obj l =>
        rw [deep_equal, Bool.and_eq_true]
        rw [wfB, Bool.and_eq_true] at hwf
        constructor
        · exact sameKeySet_iff.mpr (fun k => Iff.rfl)
        · rw [deepEqFields_iff]
          rintro ⟨k, v⟩ hp
          refine ⟨v, lookupJ_of_mem hwf.1 hp, ?_⟩
          have hx : sizeOf v < sizeOf l := sizeOf_snd_lt_of_mem_objList hp
          have hl : sizeOf l < sizeOf (JVal.obj l) := by simp
          exact ih v (by omega) (wfFieldsB_mem hwf.2 hp)
  exact fun v => H (sizeOf v) v (Nat.le_refl _)

/- ## The specification relation for C1

`DeepEqSpec` is written from the spec sentence, independently of the code:
objects are equal iff they have the same key set and are recursively equal
per key, sequences are equal iff they have the same length and are pairwise
recursively equal in order, scalars are equal iff identical. -/

inductive DeepEqSpec : JVal → JVal → Prop where
  | str (s : String) : DeepEqSpec (.str s) (.str s)
  | num (n : Int) : DeepEqSpec (.num n) (.num n)
  | bool (b : Bool) : DeepEqSpec (.bool b) (.bool b)
  | null : DeepEqSpec .null .null
  | arr {a b : List JVal} : List.Forall₂ DeepEqSpec a b →
      DeepEqSpec (.arr a) (.arr b)
  | obj {a b : List (String × JVal)} :
      (∀ k, k ∈ keysOf a ↔ k ∈ keysOf b) →
      (∀ k v w, lookupJ a k = some v → lookupJ b k = some w → DeepEqSpec v w) →
      DeepEqSpec (.obj a) (.obj b)

/- `DeepEqPySpec` amends the scalar rule: scalars are equal per Python
`==`, which identifies `True` with `1` and `False` with `0` (`bool` is an
`int` subtype) and makes every other cross-type pair unequal. -/

inductive DeepEqPySpec : JVal → JVal → Prop where
  | str (s : String) : DeepEqPySpec (.str s) (.str s)
  | num (n : Int) : DeepEqPySpec (.num n) (.num n)
  | bool (b : Bool) : DeepEqPySpec (.bool b) (.bool b)
  | numBool (n : Int) (b : Bool) (h : n = if b then 1 else 0) :
      DeepEqPySpec (.num n) (.bool b)
  | boolNum (b : Bool) (n : Int) (h : n = if b then 1 else 0) :
      DeepEqPySpec (.bool b) (.num n)
  | null : DeepEqPySpec .null .null
  | arr {a b : List JVal} : List.Forall₂ DeepEqPySpec a b →
      DeepEqPySpec (.arr a) (.arr b)
  | obj {a b : List (String × JVal)} :
      (∀ k, k ∈ keysOf a ↔ k ∈ keysOf b) →
      (∀ k v w, lookupJ a k = some v → lookupJ b k = some w → DeepEqPySpec v w) →
      DeepEqPySpec (.obj a) (.obj b)

/-- The list component of the comparison agrees with `List.Forall₂` of a
relation whenever all element pairs already agree with it. -/
theorem deepEqList_iff_forall {R : JVal → JVal → Prop} {l m : List JVal}
    (ho : ∀ x ∈ l, ∀ y ∈ m, (deep_equal x y = true ↔ R x y)) :
    (deepEqList l m = true ↔ List.Forall₂ R l m) := by
  induction l generalizing m with
  | nil =>
    cases m with
    | nil => simp [deepEqList]
    | cons y ys => simp [deepEqList]
  | cons x xs ihl =>
    cases m with
    | nil => simp [deepEqList]
    | cons y ys =>
      rw [deepEqList, Bool.and_eq_true]
      have ho2 : ∀ a ∈ xs, ∀ b ∈ ys, (deep_equal a b = true ↔ R a b) :=
        fun a ha b hb => ho a (List.mem_cons_of_mem _ ha) b (List.mem_cons_of_mem _ hb)
      constructor
      · rintro ⟨h1, h2⟩
        exact .cons ((ho x (List.mem_cons_self _ _) y (List.mem_cons_self _ _)).mp h1)
          ((ihl ho2).mp h2)
      · intro h
        cases h with
        | cons hxy hxys =>
          exact ⟨(ho x (List.mem_cons_self _ _) y (List.mem_cons_self _ _)).mpr hxy,
            (ihl ho2).mpr hxys⟩

/-- On well-formed values, the code's recursive comparison
(`_compare_values` / `_deep_equal`) decides exactly the deep-equality
relation with Python's scalar rule (`DeepEqPySpec`). -/
theorem deep_equal_iff_pyspec : ∀ a b : JVal, wfB a = true → wfB b = true →
    (deep_equal a b = true ↔ DeepEqPySpec a b) := by
  have H : ∀ n : Nat, ∀ a b : JVal, sizeOf a + sizeOf b ≤ n →
      wfB a = true → wfB b = true →
      (deep_equal a b = true ↔ DeepEqPySpec a b) := by
    intro n
    induction n with
    | zero =>
      intro a _ hsz
      exact absurd hsz (by cases a <;> simp <;> omega)
    | succ n ih =>
      intro a b hsz hwa hwb
      cases a with
      | str s =>
        cases b
        case str s2 =>
          constructor
          · intro h
            have h2 : s = s2 := by simpa [deep_equal] using h
            subst h2
            exact .str s
          · rintro ⟨⟩
            simp [deep_equal]
        all_goals simp [deep_equal]
        all_goals intro h
        all_goals cases h
      | num m =>
        cases b
        case num m2 =>
          constructor
          · intro h
            have h2 : m = m2 := by simpa [deep_equal] using h
            subst h2
            exact .num m
          · rintro ⟨⟩
            simp [deep_equal]
        case bool v =>
          constructor
          · intro h
            have h2 : m = (if v then 1 else 0) := by simpa [deep_equal] using h
            exact .numBool m v h2
          · intro h
            cases h
            simp_all [deep_equal]
        all_goals simp [deep_equal]
        all_goals intro h
        all_goals cases h
      | bool v =>
        cases b
        case bool v2 =>
          constructor
          · intro h
            have h2 : v = v2 := by simpa [deep_equal] using h
            subst h2
            exact .bool v
          · rintro ⟨⟩
            simp [deep_equal]
        case num m2 =>
          constructor
          · intro h
            have h2 : (if v then (1 : Int) else 0) = m2 := by
              simpa [deep_equal] using h
            exact .boolNum v m2 h2.symm
          · intro h
            cases h
            simp_all [deep_equal]
        all_goals simp [deep_equal]
        all_goals intro h
        all_goals cases h
      | null =>
        cases b
        case null =>
          simp only [deep_equal, true_iff]
          exact .null
        all_goals simp [deep_equal]
        all_goals intro h
        all_goals cases h
      | arr l =>
        cases b
        case arr m =>
          rw [wfB] at hwa hwb
          have ho : ∀ x ∈ l, ∀ y ∈ m, (deep_equal x y = true ↔ DeepEqPySpec x y) := by
            intro x hx y hy
            have h1 : sizeOf x < sizeOf (JVal.arr l) := by
              have := sizeOf_lt_of_mem_arrList hx; simp; omega
            have h2 : sizeOf y < sizeOf (JVal.arr m) := by
              have := sizeOf_lt_of_mem_arrList hy; simp; omega
            exact ih x y (by omega) (wfListB_mem hwa hx) (wfListB_mem hwb hy)
          have hu : deep_equal (JVal.arr l) (JVal.arr m) = deepEqList l m := by
            simp [deep_equal]
          rw [hu, deepEqList_iff_forall ho]
          constructor
          · exact fun h => .arr h
          · intro hsp; cases hsp with
            | arr hfa => exact hfa
        all_goals simp [deep_equal]
        all_goals intro h
        all_goals cases h
      | obj l =>
        cases b
        case obj m =>
          have hu : deep_equal (JVal.obj l) (JVal.obj m) =
              (sameKeySet l m && deepEqFields l m) := by
            simp [deep_equal]
          rw [hu, Bool.and_eq_true]
          rw [wfB, Bool.and_eq_true] at hwa hwb
          constructor
          · rintro ⟨hks, hfs⟩
            refine .obj (sameKeySet_iff.mp hks) ?_
            intro k v w hv hw
            obtain ⟨w2, hw2, he⟩ := deepEqFields_iff.mp hfs (k, v) (mem_of_lookupJ hv)
            simp only at hw2
            rw [hw] at hw2
            obtain rfl : w = w2 := by injection hw2
            have hva : sizeOf v < sizeOf (JVal.obj l) := by
              have := sizeOf_lookupJ hv; simp; omega
            have hwb2 : sizeOf w < sizeOf (JVal.obj m) := by
              have := sizeOf_lookupJ hw; simp; omega
            exact (ih v w (by omega)
              (wfFieldsB_mem hwa.2 (mem_of_lookupJ hv))
              (wfFieldsB_mem hwb.2 (mem_of_lookupJ hw))).mp he
          · intro hsp
            cases hsp with
            | obj hks hper =>
              refine ⟨sameKeySet_iff.mpr hks, deepEqFields_iff.mpr ?_⟩
              rintro ⟨k, v⟩ hp
              have hv : lookupJ l k = some v := lookupJ_of_mem hwa.1 hp
              have hkm : k ∈ keysOf m := (hks k).mp (keys_mem_of_lookupJ hv)
              obtain ⟨w, hw⟩ := lookupJ_isSome_of_mem_keys hkm
              refine ⟨w, hw, ?_⟩
              have hva : sizeOf v < sizeOf (JVal.obj l) := by
                have := sizeOf_lookupJ hv; simp; omega
              have hwb2 : sizeOf w < sizeOf (JVal.obj m) := by
                have := sizeOf_lookupJ hw; simp; omega
              exact (ih v w (by omega)
                (wfFieldsB_mem hwa.2 hp)
                (wfFieldsB_mem hwb.2 (mem_of_lookupJ hw))).mpr
                (hper k v w hv hw)
        all_goals simp [deep_equal]
        all_goals intro h
        all_goals cases h
  exact fun a b hwa hwb => H (sizeOf a + sizeOf b) a b (Nat.le_refl _) hwa hwb

/- ## Stage extraction (`extract_stages.py`)

The specific `re` patterns the module uses are embedded as hand-written
scanners over character lists:

* `re.findall(r'\$(\w+):', s)` — `dollarOps`: a match is a `'$'`, a maximal
  non-empty run of word characters, then `':'` (a shorter run cannot be
  followed by `':'` because the next character of the run is a word
  character, so greediness with backtracking reduces to the maximal run);
  scanning resumes after the `':'` of a match, or one position after a
  failed `'$'`.
* `re.search(r'/[^/]+/[i]?', s)` — `slashScan`: some `'/'`, at least one
  non-`'/'` character, then `'/'` (the optional `i` cannot affect whether a
  match exists).
* `re.findall(r'\{(.*?)\}', s, re.DOTALL)` — `bracesFindall`: repeatedly
  take the next `'{'` and capture up to the first following `'}'`.
* `re.search(r'\.find\s*\((.*?)\)(?:\s*\.|\s*;|\s*$)', s, re.DOTALL)` and
  the analogous `.aggregate` pattern — `searchCall`: leftmost start
  position wins; for a fixed start the non-greedy group ends at the first
  `')'` whose trailing context matches (whitespace run then `'.'`/`';'`,
  or whitespace run then end of string).
* `re.search(r'pipeline:\s*\[(.*?)\]', s, re.DOTALL)` — `pipelineSearch`.
-/

/-- `re.findall(r'\$(\w+):', s)`: the state is `none` outside a candidate
match and `some run` (reversed accumulated word characters) after a `'$'`. -/
def dollarOpsAux : List Char → Option (List Char) → List String → List String
  | [], _, acc => acc.reverse
  | c :: rest, none, acc =>
    if c == '$' then dollarOpsAux rest (some []) acc
    else dollarOpsAux rest none acc
  | c :: rest, some run, acc =>
    if isWordChar c then dollarOpsAux rest (some (c :: run)) acc
    else if c == ':' && !run.isEmpty then
      dollarOpsAux rest none (String.mk run.reverse :: acc)
    else if c == '$' then dollarOpsAux rest (some []) acc
    else dollarOpsAux rest none acc

def dollarOps (s : List Char) : List String := dollarOpsAux s none []

/-- `re.search(r'/[^/]+/[i]?', s) is not None`.  State `0`: no pending
`'/'`; state `1`: just after a `'/'`; state `2`: after a `'/'` and at least
one non-`'/'` character. -/
def slashScan : List Char → Nat → Bool
  | [], _ => false
  | c :: rest, st =>
    if c == '/' then
      if st == 2 then true else slashScan rest 1
    else
      if st == 0 then slashScan rest 0 else slashScan rest 2

/-- `_extract_regex_operators` (extract_stages.py 4-12). -/
def extract_regex_operators (s : List Char) : Bool :=
  containsSub "$regex".data s || slashScan s 0

/-- `_extract_expr_operators` (extract_stages.py 14-23). -/
def extract_expr_operators (s : List Char) : List String :=
  if containsSub "$expr".data s then
    "expr" ::
      (["$eq", "$gt", "$gte", "$lt", "$lte", "$ne", "$not"].filter
        (fun op => containsSub op.data s)).map (fun op => op.drop 1)
  else []

/-- `re.findall(r'\{(.*?)\}', s, re.DOTALL)`: the state is `none` outside a
capture and `some cur` (reversed) between a `'{'` and the first `'}'`. -/
def bracesAux : List Char → Option (List Char) → List (List Char) → List (List Char)
  | [], _, acc => acc.reverse
  | c :: rest, none, acc =>
    if c == '{' then bracesAux rest (some []) acc
    else bracesAux rest none acc
  | c :: rest, some cur, acc =>
    if c == '}' then bracesAux rest none (cur.reverse :: acc)
    else bracesAux rest (some (c :: cur)) acc

def bracesFindall (s : List Char) : List (List Char) := bracesAux s none []

/-- Trailing context `(?:\s*\.|\s*;|\s*$)` of the `.find` pattern. -/
def trailFind (l : List Char) : Bool :=
  match l.dropWhile isPySpace with
  | [] => true
  | c :: _ => c == '.' || c == ';'

/-- Trailing context `(?:\s*;|\s*$)` of the `.aggregate` pattern. -/
def trailAgg (l : List Char) : Bool :=
  match l.dropWhile isPySpace with
  | [] => true
  | c :: _ => c == ';'

/-- The non-greedy group `(.*?)\)` followed by a trailing-context test:
accumulate characters until the first `')'` whose suffix satisfies `trail`. -/
def grabGroup (trail : List Char → Bool) : List Char → List Char → Option (List Char)
  | _, [] => none
  | acc, c :: rest =>
    if c == ')' && trail rest then some acc.reverse
    else grabGroup trail (c :: acc) rest

/-- Match `<callPat>\s*\((.*?)\)<trail>` anchored at the start of `l`. -/
def matchCallAt (callPat : List Char) (trail : List Char → Bool)
    (l : List Char) : Option (List Char) :=
  if lstartsWith callPat l then
    match (l.drop callPat.length).dropWhile isPySpace with
    | '(' :: r => grabGroup trail [] r
    | _ => none
  else none

/-- `re.search` for the call patterns: try every start position from the
left, first success wins. -/
def searchCall (callPat : List Char) (trail : List Char → Bool) :
    List Char → Option (List Char)
  | [] => matchCallAt callPat trail []
  | c :: cs =>
    match matchCallAt callPat trail (c :: cs) with
    | some g => some g
    | none => searchCall callPat trail cs

/-- Capture `(.*?)\]`: up to the first `']'`. -/
def toFirstClose : List Char → List Char → Option (List Char)
  | _, [] => none
  | acc, c :: rest =>
    if c == ']' then some acc.reverse
    else toFirstClose (c :: acc) rest

/-- Match `pipeline:\s*\[(.*?)\]` anchored at the start of `l`. -/
def pipeAt (l : List Char) : Option (List Char) :=
  if lstartsWith "pipeline:".data l then
    match (l.drop 9).dropWhile isPySpace with
    | '[' :: r => toFirstClose [] r
    | _ => none
  else none

/-- `re.search(r'pipeline:\s*\[(.*?)\]', s, re.DOTALL)`. -/
def pipelineSearch : List Char → Option (List Char)
  | [] => none
  | c :: cs =>
    match pipeAt (c :: cs) with
    | some g => some g
    | none => pipelineSearch cs

/-- `_parse_pipeline_stage` (extract_stages.py 25-57).  The `fuel`
argument only bounds the recursion depth through `$lookup` sub-pipelines;
every sub-stage chunk is a strict substring of the stage text, so a fuel of
`length + 1` can never be exhausted. -/
def parse_pipeline_stage : Nat → List Char → List String
  | 0, _ => []
  | Nat.succ fuel, s =>
    match dollarOps s with
    | [] => []
    | mainOp :: _ =>
      mainOp ::
        (if mainOp = "match" then
          (if containsSub "$not".data s then ["not"]
           else if extract_regex_operators s then ["regex"]
           else [])
          ++ extract_expr_operators s
         else if mainOp = "lookup" && containsSub "pipeline:".data s then
           match pipelineSearch s with
           | some sub =>
             (bracesFindall sub).foldl
               (fun acc st => acc ++ parse_pipeline_stage fuel st) []
           | none => []
         else [])

/-- `get_query_stages` (extract_stages.py 59-128). -/
def get_query_stages (query : String) : List String :=
  let q := stripChars query.data
  if containsSub ".find(".data q then
    match searchCall ".find".data trailFind q with
    | none => []
    | some findArgs =>
      let args := bracesFindall findArgs
      let part1 :=
        match args with
        | [] => []
        | a0 :: _ =>
          if stripChars a0 ≠ [] then
            ["match"]
            ++ (if extract_regex_operators a0 then ["regex"] else [])
            ++ (if containsSub "$not".data a0 then ["not"] else [])
          else []
      let part2 :=
        match args.get? 1 with
        | some a1 => if stripChars a1 ≠ [] then ["project"] else []
        | none => []
      part1 ++ part2
      ++ (if containsSub ".sort(".data q then ["sort"] else [])
      ++ (if containsSub ".limit(".data q then ["limit"] else [])
  else if containsSub ".aggregate(".data q then
    match searchCall ".aggregate".data trailAgg q with
    | none => []
    | some pstr =>
      (bracesFindall pstr).foldl
        (fun acc st => acc ++ parse_pipeline_stage (st.length + 1) st) []
  else []

/- ## C4: negation vs regex tokens -/

theorem regex_not_mem_extract_expr_operators (s : List Char) :
    "regex" ∉ extract_expr_operators s := by
  unfold extract_expr_operators
  split
  · intro hmem
    rcases List.mem_cons.mp hmem with h | h
    · exact absurd h (by decide)
    · obtain ⟨op, hop, hdrop⟩ := List.mem_map.mp h
      have hbase : op ∈ ["$eq", "$gt", "$gte", "$lt", "$lte", "$ne", "$not"] :=
        (List.mem_filter.mp hop).1
      fin_cases hbase <;> exact absurd hdrop (by decide)
  · simp

/-- C4 (amended): inside an aggregate-pipeline stage chunk whose first
`$op:` token is `match`, the presence of a negation operator (`$not`
anywhere in the chunk) makes `_parse_pipeline_stage` emit the token `not`
and suppresses the token `regex`, even when a regex operator or
slash-delimited pattern is also present.  (In the `find` branch of
`get_query_stages` the two checks are independent `if`s, so both tokens can
be emitted there; see the counterexample.) -/
theorem c4_match_not_excludes_regex (n : Nat) (s : List Char)
    (hmain : (dollarOps s).head? = some "match")
    (hnot : containsSub "$not".data s = true) :
    "not" ∈ parse_pipeline_stage (n + 1) s ∧
    "regex" ∉ parse_pipeline_stage (n + 1) s := by
  rcases hd : dollarOps s with _ | ⟨op, rest⟩
  · rw [hd] at hmain
    simp at hmain
  · rw [hd] at hmain
    simp only [List.head?_cons, Option.some.injEq] at hmain
    subst hmain
    rw [parse_pipeline_stage, hd]
    simp only [if_pos rfl, hnot, if_pos]
    constructor
    · simp
    · intro hmem
      rcases List.mem_cons.mp hmem with h | h
      · exact absurd h (by decide)
      · rcases List.mem_append.mp h with h2 | h2
        · exact absurd h2 (by decide)
        · exact regex_not_mem_extract_expr_operators s h2

/-- C4 counterexample: a `find` query whose match condition contains the
negation operator `$not` together with a slash-delimited regex pattern.
`get_query_stages` emits BOTH `regex` and `not` (the find branch checks
them independently), contradicting the claimed mutual exclusion. -/
theorem c4_counterexample :
    get_query_stages "db.c.find(\x7ba: \x7b$not: /M/i\x7d\x7d)" =
        ["match", "regex", "not"] ∧
      "regex" ∈ get_query_stages "db.c.find(\x7ba: \x7b$not: /M/i\x7d\x7d)" ∧
      "not" ∈ get_query_stages "db.c.find(\x7ba: \x7b$not: /M/i\x7d\x7d)" := by
  refine ⟨by decide, by decide, by decide⟩

/-- Witness for `c4_match_not_excludes_regex` at a concrete stage chunk. -/
theorem c4_witness :
    "not" ∈ parse_pipeline_stage 1 "$match: \x7ba: \x7b$not: /M/i".data ∧
    "regex" ∉ parse_pipeline_stage 1 "$match: \x7ba: \x7b$not: /M/i".data :=
  c4_match_not_excludes_regex 0 _ (by decide) (by decide)

/- ## Execution engine (`mongosh_exec.py`) -/

/-- Outcome of the `subprocess.run` call on mongosh: normal completion
(with captured stderr/stdout), `subprocess.TimeoutExpired`, or any other
exception. -/
inductive ShellOutcome where
  | completed (stderr stdout : String)
  | timeout
  | err (msg : String)
deriving DecidableEq

/-- `_format_query` (mongosh_exec.py 74-81): strip, drop trailing
semicolons, and append `.toArray()` to find/aggregate calls that lack it. -/
def format_query (query : String) : String :=
  let q := rstripSemi (pyStrip query)
  if (strContains ".find(" q || strContains ".aggregate(" q)
      && !(strContains ".toArray()" q) then
    q ++ ".toArray()"
  else q

/-- The `get_str=False` result handling of `execute_query`
(mongosh_exec.py 204-279) as a function of the subprocess outcome.
`jsonParse` abstracts `json.loads`; a parse failure raises
`json.JSONDecodeError`, which the trailing `except Exception` turns into
`[]`, exactly like the timeout and generic-exception handlers. -/
def handle_outcome (jsonParse : String → Option JVal) : ShellOutcome → List JVal
  | .timeout => []
  | .err _ => []
  | .completed stderr stdout =>
    if stderr ≠ "" then []
    else
      let out := pyStrip stdout
      if lstartsWith "__QUERY_ERROR__:".data out.data then []
      else if out = "" then []
      else
        match jsonParse out with
        | none => []
        | some (.arr xs) => xs
        | some v => [v]

/-- `MongoShellExecutor.execute_query` with `get_str=False`: the
subprocess outcome is a function `outco` of the database name and the
formatted query text (the environment). -/
def execute_query (outco : String → String → ShellOutcome)
    (jsonParse : String → Option JVal) (db q : String) : List JVal :=
  handle_outcome jsonParse (outco db (format_query q))

/- ## Schema-based field extraction (`extract_fields.py`) -/

/-- The per-field membership test of `MongoFieldParser.parse_query`
(extract_fields.py 45-52), applied to the whitespace-collapsed query
(`' '.join(query.split())`, which coincides with `normWs`). -/
def fieldAppears (q : String) (field : String) : Bool :=
  strContains ("\"" ++ field ++ "\"") q ||
  strContains ("'" ++ field ++ "'") q ||
  strContains ("$" ++ field) q ||
  strContains (field ++ ":") q ||
  strContains (".$" ++ field) q

/-- `extract_fields` (extract_fields.py 37-59).  The schema field set
loaded from `mongodb_schema/<db>.json` is abstracted as the list
`allFields`; the result is the sorted list of matching fields. -/
def extract_fields (allFields : List String) (mql : String) : List String :=
  List.insertionSort (fun a b => a ≤ b)
    ((allFields.filter (fieldAppears (normWs mql))).dedup)

/- ## The comparator (`metric.py` `QueryComparator.compare`) -/

/-- The per-example metric vector (0/1 values as booleans). -/
structure Metrics where
  EX : Bool
  EM : Bool
  QSM : Bool
  QFC : Bool
  EFM : Bool
  EVM : Bool

/-- Python `set.add` on a duplicate-free list model of a set. -/
def setAdd (acc : List String) (k : String) : List String :=
  if acc.contains k then acc else acc ++ [k]

mutual
/-- `get_all_fields` (metric.py 139-147): add every dict key encountered,
recursing through values and sequence elements; `acc` is the Python set
being mutated. -/
def get_all_fields : JVal → List String → List String
  | .obj l, acc => getAllFieldsObj l acc
  | .arr l, acc => getAllFieldsList l acc
  | _, acc => acc

def getAllFieldsObj : List (String × JVal) → List String → List String
  | [], acc => acc
  | (k, v) :: rest, acc => getAllFieldsObj rest (get_all_fields v (setAdd acc k))

def getAllFieldsList : List JVal → List String → List String
  | [], acc => acc
  | x :: xs, acc => getAllFieldsList xs (get_all_fields x acc)
end

/-- The EFM/EVM loop of `compare` (metric.py 150-154): walk the zipped
result lists, accumulating both field sets and clearing EVM on any deep
inequality. -/
def efmEvmLoop : List (JVal × JVal) → List String → List String → Bool →
    List String × List String × Bool
  | [], f1, f2, evm => (f1, f2, evm)
  | (g, p) :: rest, f1, f2, evm =>
    efmEvmLoop rest (get_all_fields g f1) (get_all_fields p f2)
      (if deep_equal g p then evm else false)

/-- Python `set(a) == set(b)` on list models. -/
def strSetEq (a b : List String) : Bool :=
  a.all (fun k => b.contains k) && b.all (fun k => a.contains k)

/-- `QueryComparator.compare` (metric.py 82-171; metric2.py 333-457
computes the same six values, adding only caching and logging).
`outco`/`jsonParse` model the execution environment and `schema db` the
per-database schema file behind `extract_fields` (`none`: the file cannot
be loaded, so the `except` branch zeroes QFC).  The embedded stage and
field extractors are total, so the QSM `except` branch cannot trigger, and
`execute_query` never raises (mongosh_exec.py catches everything), so the
EX/EFM/EVM `except` branch cannot trigger either. -/
def compare (outco : String → String → ShellOutcome)
    (jsonParse : String → Option JVal)
    (schema : String → Option (List String))
    (query1 query2 db : String) : Metrics :=
  let em := normWs query1 == normWs query2
  let qsm := get_query_stages query1 == get_query_stages query2
  let qfc :=
    match schema db with
    | some fl => strSetEq (extract_fields fl query1) (extract_fields fl query2)
    | none => false
  let r1 := execute_query outco jsonParse db query1
  let r2 := execute_query outco jsonParse db query2
  let ex := deepEqList r1 r2
  let t := efmEvmLoop (r1.zip r2) [] [] true
  { EX := ex, EM := em, QSM := qsm, QFC := qfc,
    EFM := strSetEq t.1 t.2.1, EVM := t.2.2 }

/- ## Lemmas about the comparator building blocks -/

theorem deep_equal_arr (l m : List JVal) :
    deep_equal (JVal.arr l) (JVal.arr m) = deepEqList l m := by
  simp [deep_equal]

theorem wfB_arr (l : List JVal) : wfB (JVal.arr l) = wfListB l := by
  simp [wfB]

theorem strSetEq_iff {a b : List String} :
    strSetEq a b = true ↔ (∀ k, k ∈ a ↔ k ∈ b) := by
  unfold strSetEq
  rw [Bool.and_eq_true, List.all_eq_true, List.all_eq_true]
  constructor
  · rintro ⟨h1, h2⟩ k
    constructor
    · intro hk
      simpa [List.contains] using h1 k hk
    · intro hk
      simpa [List.contains] using h2 k hk
  · intro h
    refine ⟨fun k hk => ?_, fun k hk => ?_⟩
    · simpa [List.contains] using (h k).mp hk
    · simpa [List.contains] using (h k).mpr hk

theorem strSetEq_refl (a : List String) : strSetEq a a = true :=
  strSetEq_iff.mpr (fun _ => Iff.rfl)

theorem deepEqList_refl (r : List JVal) (hw : wfListB r = true) :
    deepEqList r r = true := by
  induction r with
  | nil => rw [deepEqList]
  | cons x xs ih =>
    rw [wfListB, Bool.and_eq_true] at hw
    rw [deepEqList, Bool.and_eq_true]
    exact ⟨deep_equal_refl x hw.1, ih hw.2⟩

theorem efmEvmLoop_self (r : List JVal) (hw : wfListB r = true) :
    ∀ acc : List String,
      (efmEvmLoop (r.zip r) acc acc true).1 = (efmEvmLoop (r.zip r) acc acc true).2.1 ∧
      (efmEvmLoop (r.zip r) acc acc true).2.2 = true := by
  induction r with
  | nil => intro acc; exact ⟨rfl, rfl⟩
  | cons x xs ih =>
    intro acc
    rw [wfListB, Bool.and_eq_true] at hw
    have hx : deep_equal x x = true := deep_equal_refl x hw.1
    have hzip : (x :: xs).zip (x :: xs) = (x, x) :: xs.zip xs := rfl
    have hstep : efmEvmLoop ((x :: xs).zip (x :: xs)) acc acc true =
        efmEvmLoop (xs.zip xs) (get_all_fields x acc) (get_all_fields x acc) true := by
      rw [hzip, efmEvmLoop]
      simp [hx]
    rw [hstep]
    exact ih hw.2 (get_all_fields x acc)

/- ## Field names of execution results (spec side, for C2)

`fieldNames` lists (with possible repetition, used only through membership)
every field name appearing anywhere in a value — the "union of all field
names" of the spec, written independently of the accumulator-passing
`get_all_fields` of the code. -/

mutual
def fieldNames : JVal → List String
  | .obj l => fieldNamesObj l
  | .arr l => fieldNamesList l
  | _ => []

def fieldNamesObj : List (String × JVal) → List String
  | [] => []
  | (k, v) :: rest => k :: (fieldNames v ++ fieldNamesObj rest)

def fieldNamesList : List JVal → List String
  | [] => []
  | x :: xs => fieldNames x ++ fieldNamesList xs
end

theorem mem_setAdd {acc : List String} {k0 k : String} :
    k ∈ setAdd acc k0 ↔ (k ∈ acc ∨ k = k0) := by
  unfold setAdd
  by_cases hc : acc.contains k0
  · rw [if_pos hc]
    have hk0 : k0 ∈ acc := by simpa [List.contains] using hc
    constructor
    · exact fun h => Or.inl h
    · rintro (h | rfl)
      · exact h
      · exact hk0
  · rw [if_neg hc]
    simp

theorem mem_get_all_fields :
    ∀ v : JVal, ∀ acc : List String, ∀ k : String,
      (k ∈ get_all_fields v acc ↔ (k ∈ acc ∨ k ∈ fieldNames v)) := by
  have H : ∀ n : Nat, ∀ v : JVal, sizeOf v ≤ n → ∀ acc k,
      (k ∈ get_all_fields v acc ↔ (k ∈ acc ∨ k ∈ fieldNames v)) := by
    intro n
    induction n with
    | zero =>
      intro v hsz
      exact absurd hsz (by cases v <;> simp <;> omega)
    | succ n ih =>
      intro v hsz acc k
      cases v with
      | str s => simp [get_all_fields, fieldNames]
      | num m => simp [get_all_fields, fieldNames]
      | bool b => simp [get_all_fields, fieldNames]
      | null => simp [get_all_fields, fieldNames]
      | arr l =>
        have hbound : ∀ x ∈ l, sizeOf x ≤ n := by
          intro x hx
          have h1 : sizeOf x < sizeOf (JVal.arr l) := by
            have := sizeOf_lt_of_mem_arrList hx; simp; omega
          omega
        have hinner : ∀ m : List JVal, (∀ x ∈ m, sizeOf x ≤ n) → ∀ acc2,
            (k ∈ getAllFieldsList m acc2 ↔ (k ∈ acc2 ∨ k ∈ fieldNamesList m)) := by
          intro m
          induction m with
          | nil => intro _ acc2; simp [getAllFieldsList, fieldNamesList]
          | cons x xs ihm =>
            intro hb acc2
            rw [getAllFieldsList, fieldNamesList]
            rw [ihm (fun y hy => hb y (List.mem_cons_of_mem _ hy))]
            rw [ih x (hb x (List.mem_cons_self _ _))]
            simp only [List.mem_append]
            tauto
        show k ∈ getAllFieldsList l acc ↔ (k ∈ acc ∨ k ∈ fieldNamesList l)
        exact hinner l hbound acc
      | obj l =>
        have hbound : ∀ p ∈ l, sizeOf (Prod.snd p) ≤ n := by
          rintro ⟨k0, v0⟩ hp
          have h1 : sizeOf v0 < sizeOf (JVal.obj l) := by
            have := sizeOf_snd_lt_of_mem_objList hp; simp; omega
          simpa using Nat.le_of_lt_succ (Nat.lt_of_lt_of_le h1 hsz)
        have hinner : ∀ m : List (String × JVal),
            (∀ p ∈ m, sizeOf (Prod.snd p) ≤ n) → ∀ acc2,
            (k ∈ getAllFieldsObj m acc2 ↔ (k ∈ acc2 ∨ k ∈ fieldNamesObj m)) := by
          intro m
          induction m with
          | nil => intro _ acc2; simp [getAllFieldsObj, fieldNamesObj]
          | cons p rest ihm =>
            obtain ⟨k0, v0⟩ := p
            intro hb acc2
            rw [getAllFieldsObj, fieldNamesObj]
            rw [ihm (fun y hy => hb y (List.mem_cons_of_mem _ hy))]
            rw [ih v0 (hb (k0, v0) (List.mem_cons_self _ _))]
            rw [mem_setAdd]
            simp only [List.mem_cons, List.mem_append]
            tauto
        show k ∈ getAllFieldsObj l acc ↔ (k ∈ acc ∨ k ∈ fieldNamesObj l)
        exact hinner l hbound acc
  exact fun v => H (sizeOf v) v (Nat.le_refl _)

theorem efmEvmLoop_fields (pairs : List (JVal × JVal)) :
    ∀ f1 f2 evm k,
      (k ∈ (efmEvmLoop pairs f1 f2 evm).1 ↔
        (k ∈ f1 ∨ k ∈ fieldNamesList (pairs.map Prod.fst))) ∧
      (k ∈ (efmEvmLoop pairs f1 f2 evm).2.1 ↔
        (k ∈ f2 ∨ k ∈ fieldNamesList (pairs.map Prod.snd))) := by
  induction pairs with
  | nil =>
    intro f1 f2 evm k
    simp [efmEvmLoop, fieldNamesList]
  | cons p rest ih =>
    obtain ⟨g, q⟩ := p
    intro f1 f2 evm k
    rw [efmEvmLoop]
    constructor
    · rw [(ih _ _ _ k).1, mem_get_all_fields]
      simp only [List.map_cons, fieldNamesList, List.mem_append]
      tauto
    · rw [(ih _ _ _ k).2, mem_get_all_fields]
      simp only [List.map_cons, fieldNamesList, List.mem_append]
      tauto

theorem zip_map_fst_take (l1 l2 : List JVal) :
    (l1.zip l2).map Prod.fst = l1.take (min l1.length l2.length) := by
  induction l1 generalizing l2 with
  | nil => simp
  | cons x xs ih =>
    cases l2 with
    | nil => simp
    | cons y ys =>
      simp only [List.zip_cons_cons, List.map_cons, List.length_cons]
      rw [ih ys]
      have : min (xs.length + 1) (ys.length + 1) = min xs.length ys.length + 1 := by
        omega
      rw [this, List.take_succ_cons]

theorem zip_map_snd_take (l1 l2 : List JVal) :
    (l1.zip l2).map Prod.snd = l2.take (min l1.length l2.length) := by
  induction l1 generalizing l2 with
  | nil => simp
  | cons x xs ih =>
    cases l2 with
    | nil => simp
    | cons y ys =>
      simp only [List.zip_cons_cons, List.map_cons, List.length_cons]
      rw [ih ys]
      have : min (xs.length + 1) (ys.length + 1) = min xs.length ys.length + 1 := by
        omega
      rw [this, List.take_succ_cons]

/- ## C1: EX is deep structural equality, with Python's scalar rule -/

/-- C1 counterexample: the scalar fallback of `_compare_values` /
`_deep_equal` is Python `==`, under which `1 == True`.  With a gold
result `[1]` and a predicted result `[true]` the comparator sets EX = 1
although the two scalars are not identical, so EX is not the relation
"scalars equal iff identical" of the spec (`DeepEqSpec` fails here). -/
theorem c1_counterexample :
    execute_query (fun _ q => ShellOutcome.completed "" q)
      (fun s => if s = "g" then some (JVal.arr [JVal.num 1])
        else if s = "p" then some (JVal.arr [JVal.bool true]) else none)
      "d" "g" = [JVal.num 1] ∧
    execute_query (fun _ q => ShellOutcome.completed "" q)
      (fun s => if s = "g" then some (JVal.arr [JVal.num 1])
        else if s = "p" then some (JVal.arr [JVal.bool true]) else none)
      "d" "p" = [JVal.bool true] ∧
    (compare (fun _ q => ShellOutcome.completed "" q)
      (fun s => if s = "g" then some (JVal.arr [JVal.num 1])
        else if s = "p" then some (JVal.arr [JVal.bool true]) else none)
      (fun _ => none) "g" "p" "d").EX = true ∧
    ¬ DeepEqSpec (JVal.arr [JVal.num 1]) (JVal.arr [JVal.bool true]) := by
  refine ⟨rfl, rfl, ?_, ?_⟩
  · show deepEqList (execute_query (fun _ q => ShellOutcome.completed "" q)
      (fun s => if s = "g" then some (JVal.arr [JVal.num 1])
        else if s = "p" then some (JVal.arr [JVal.bool true]) else none)
      "d" "g")
      (execute_query (fun _ q => ShellOutcome.completed "" q)
        (fun s => if s = "g" then some (JVal.arr [JVal.num 1])
          else if s = "p" then some (JVal.arr [JVal.bool true]) else none)
        "d" "p") = true
    have h1 : execute_query (fun _ q => ShellOutcome.completed "" q)
        (fun s => if s = "g" then some (JVal.arr [JVal.num 1])
          else if s = "p" then some (JVal.arr [JVal.bool true]) else none)
        "d" "g" = [JVal.num 1] := rfl
    have h2 : execute_query (fun _ q => ShellOutcome.completed "" q)
        (fun s => if s = "g" then some (JVal.arr [JVal.num 1])
          else if s = "p" then some (JVal.arr [JVal.bool true]) else none)
        "d" "p" = [JVal.bool true] := rfl
    rw [h1, h2]
    simp [deepEqList, deep_equal]
  · intro h
    cases h with
    | arr hfa =>
      cases hfa with
      | cons hd _ => cases hd

/-- C1 (amended): for the comparator, EX = 1 exactly when the deep
structural equality relation with Python's scalar rule (`DeepEqPySpec`:
objects by key set and recursively per key, sequences by length and
pairwise order, scalars by Python `==`, which identifies `True` with `1`
and `False` with `0` because `bool` is an `int` subtype) holds between
the gold and predicted execution result sequences.  The results of any
execution are well-formed (Python dicts cannot carry duplicate keys),
which the `wfListB` hypotheses record. -/
theorem c1_ex_is_python_deep_equality
    (outco : String → String → ShellOutcome) (jsonParse : String → Option JVal)
    (schema : String → Option (List String)) (q1 q2 db : String)
    (hw1 : wfListB (execute_query outco jsonParse db q1) = true)
    (hw2 : wfListB (execute_query outco jsonParse db q2) = true) :
    ((compare outco jsonParse schema q1 q2 db).EX = true ↔
      DeepEqPySpec (JVal.arr (execute_query outco jsonParse db q1))
        (JVal.arr (execute_query outco jsonParse db q2))) := by
  have hEX : (compare outco jsonParse schema q1 q2 db).EX =
      deepEqList (execute_query outco jsonParse db q1)
        (execute_query outco jsonParse db q2) := rfl
  rw [hEX, ← deep_equal_arr]
  exact deep_equal_iff_pyspec _ _
    (by rw [wfB_arr]; exact hw1) (by rw [wfB_arr]; exact hw2)

/-- Witness for `c1_ex_is_python_deep_equality` at a concrete
environment (both queries execute to `[{"a": 1}]`). -/
theorem c1_witness :
    ((compare (fun _ _ => ShellOutcome.completed "" "R")
        (fun s => if s = "R" then some (JVal.arr [JVal.obj [("a", JVal.num 1)]]) else none)
        (fun _ => none) "q1" "q2" "d").EX = true ↔
      DeepEqPySpec
        (JVal.arr (execute_query (fun _ _ => ShellOutcome.completed "" "R")
          (fun s => if s = "R" then some (JVal.arr [JVal.obj [("a", JVal.num 1)]]) else none)
          "d" "q1"))
        (JVal.arr (execute_query (fun _ _ => ShellOutcome.completed "" "R")
          (fun s => if s = "R" then some (JVal.arr [JVal.obj [("a", JVal.num 1)]]) else none)
          "d" "q2"))) :=
  c1_ex_is_python_deep_equality _ _ _ _ _ _ (by decide) (by decide)

/- ## C3: reflexivity of the comparator -/

/-- C3: comparing any query text against itself yields
EM=QSM=QFC=EX=EFM=EVM=1.  The hypotheses state that the per-database
schema file loads (otherwise the code's `except` branch zeroes QFC) and
that the executed result is well-formed. -/
theorem c3_reflexivity
    (outco : String → String → ShellOutcome) (jsonParse : String → Option JVal)
    (schema : String → Option (List String)) (q db : String) (fl : List String)
    (hschema : schema db = some fl)
    (hwf : wfListB (execute_query outco jsonParse db q) = true) :
    (compare outco jsonParse schema q q db).EM = true ∧
    (compare outco jsonParse schema q q db).QSM = true ∧
    (compare outco jsonParse schema q q db).QFC = true ∧
    (compare outco jsonParse schema q q db).EX = true ∧
    (compare outco jsonParse schema q q db).EFM = true ∧
    (compare outco jsonParse schema q q db).EVM = true := by
  refine ⟨?_, ?_, ?_, ?_, ?_, ?_⟩
  · show (normWs q == normWs q) = true
    simp
  · show (get_query_stages q == get_query_stages q) = true
    simp
  · show (match schema db with
      | some fl2 => strSetEq (extract_fields fl2 q) (extract_fields fl2 q)
      | none => false) = true
    rw [hschema]
    exact strSetEq_refl _
  · show deepEqList (execute_query outco jsonParse db q)
      (execute_query outco jsonParse db q) = true
    exact deepEqList_refl _ hwf
  · show strSetEq
      (efmEvmLoop ((execute_query outco jsonParse db q).zip
        (execute_query outco jsonParse db q)) [] [] true).1
      (efmEvmLoop ((execute_query outco jsonParse db q).zip
        (execute_query outco jsonParse db q)) [] [] true).2.1 = true
    rw [(efmEvmLoop_self _ hwf []).1]
    exact strSetEq_refl _
  · show (efmEvmLoop ((execute_query outco jsonParse db q).zip
      (execute_query outco jsonParse db q)) [] [] true).2.2 = true
    exact (efmEvmLoop_self _ hwf []).2

/-- Witness for `c3_reflexivity` at a concrete environment. -/
theorem c3_witness :
    (compare (fun _ _ => ShellOutcome.completed "" "R")
      (fun s => if s = "R" then some (JVal.arr [JVal.obj [("a", JVal.num 1)]]) else none)
      (fun _ => some ["a", "b"]) "db.c.find()" "db.c.find()" "d").EM = true ∧
    (compare (fun _ _ => ShellOutcome.completed "" "R")
      (fun s => if s = "R" then some (JVal.arr [JVal.obj [("a", JVal.num 1)]]) else none)
      (fun _ => some ["a", "b"]) "db.c.find()" "db.c.find()" "d").QSM = true ∧
    (compare (fun _ _ => ShellOutcome.completed "" "R")
      (fun s => if s = "R" then some (JVal.arr [JVal.obj [("a", JVal.num 1)]]) else none)
      (fun _ => some ["a", "b"]) "db.c.find()" "db.c.find()" "d").QFC = true ∧
    (compare (fun _ _ => ShellOutcome.completed "" "R")
      (fun s => if s = "R" then some (JVal.arr [JVal.obj [("a", JVal.num 1)]]) else none)
      (fun _ => some ["a", "b"]) "db.c.find()" "db.c.find()" "d").EX = true ∧
    (compare (fun _ _ => ShellOutcome.completed "" "R")
      (fun s => if s = "R" then some (JVal.arr [JVal.obj [("a", JVal.num 1)]]) else none)
      (fun _ => some ["a", "b"]) "db.c.find()" "db.c.find()" "d").EFM = true ∧
    (compare (fun _ _ => ShellOutcome.completed "" "R")
      (fun s => if s = "R" then some (JVal.arr [JVal.obj [("a", JVal.num 1)]]) else none)
      (fun _ => some ["a", "b"]) "db.c.find()" "db.c.find()" "d").EVM = true :=
  c3_reflexivity _ _ _ _ _ ["a", "b"] rfl (by decide)

/- ## C5: behavior on execution timeouts -/

/-- C5 (amended): a timed-out execution makes `execute_query` return the
empty list instead of raising (and the comparator never raises).  When the
other side's execution also times out, the two empty results compare
equal, so EX=EFM=EVM=1 — not 0 as claimed; when the other side returns a
non-empty result, EX=0 while EFM and EVM are still 1, because the
field-collection/value loop runs over the empty zipped prefix. -/
theorem c5_timeout_behavior
    (outco : String → String → ShellOutcome) (jsonParse : String → Option JVal)
    (schema : String → Option (List String)) (db q1 q2 : String)
    (h1 : outco db (format_query q1) = ShellOutcome.timeout) :
    execute_query outco jsonParse db q1 = [] ∧
    (outco db (format_query q2) = ShellOutcome.timeout →
      ((compare outco jsonParse schema q1 q2 db).EX = true ∧
       (compare outco jsonParse schema q1 q2 db).EFM = true ∧
       (compare outco jsonParse schema q1 q2 db).EVM = true)) ∧
    (execute_query outco jsonParse db q2 ≠ [] →
      ((compare outco jsonParse schema q1 q2 db).EX = false ∧
       (compare outco jsonParse schema q1 q2 db).EFM = true ∧
       (compare outco jsonParse schema q1 q2 db).EVM = true)) := by
  have hr1 : execute_query outco jsonParse db q1 = [] := by
    unfold execute_query
    rw [h1]
    rfl
  refine ⟨hr1, ?_, ?_⟩
  · intro h2
    have hr2 : execute_query outco jsonParse db q2 = [] := by
      unfold execute_query
      rw [h2]
      rfl
    refine ⟨?_, ?_, ?_⟩
    · show deepEqList (execute_query outco jsonParse db q1)
        (execute_query outco jsonParse db q2) = true
      rw [hr1, hr2]
      simp [deepEqList]
    · show strSetEq
        (efmEvmLoop ((execute_query outco jsonParse db q1).zip
          (execute_query outco jsonParse db q2)) [] [] true).1
        (efmEvmLoop ((execute_query outco jsonParse db q1).zip
          (execute_query outco jsonParse db q2)) [] [] true).2.1 = true
      rw [hr1, hr2]
      rfl
    · show (efmEvmLoop ((execute_query outco jsonParse db q1).zip
        (execute_query outco jsonParse db q2)) [] [] true).2.2 = true
      rw [hr1, hr2]
      rfl
  · intro hne
    refine ⟨?_, ?_, ?_⟩
    · show deepEqList (execute_query outco jsonParse db q1)
        (execute_query outco jsonParse db q2) = false
      rw [hr1]
      rcases h : execute_query outco jsonParse db q2 with _ | ⟨y, ys⟩
      · exact absurd h hne
      · simp [deepEqList]
    · show strSetEq
        (efmEvmLoop ((execute_query outco jsonParse db q1).zip
          (execute_query outco jsonParse db q2)) [] [] true).1
        (efmEvmLoop ((execute_query outco jsonParse db q1).zip
          (execute_query outco jsonParse db q2)) [] [] true).2.1 = true
      rw [hr1]
      rfl
    · show (efmEvmLoop ((execute_query outco jsonParse db q1).zip
        (execute_query outco jsonParse db q2)) [] [] true).2.2 = true
      rw [hr1]
      rfl

/-- C5 counterexample: when the gold and the predicted execution both time
out, `execute_query` returns `[]` for both, the empty results compare
deeply equal, and the metric vector has EX=EFM=EVM=1 — contradicting the
claim that EX=EFM=EVM=0 in that case. -/
theorem c5_counterexample :
    (fun (_ _ : String) => ShellOutcome.timeout) "d" (format_query "q1") =
        ShellOutcome.timeout ∧
    (fun (_ _ : String) => ShellOutcome.timeout) "d" (format_query "q2") =
        ShellOutcome.timeout ∧
    (compare (fun _ _ => ShellOutcome.timeout) (fun _ => none) (fun _ => none)
        "q1" "q2" "d").EX = true ∧
    (compare (fun _ _ => ShellOutcome.timeout) (fun _ => none) (fun _ => none)
        "q1" "q2" "d").EFM = true ∧
    (compare (fun _ _ => ShellOutcome.timeout) (fun _ => none) (fun _ => none)
        "q1" "q2" "d").EVM = true :=
  ⟨rfl, rfl, by show deepEqList [] [] = true; rw [deepEqList], by decide, by decide⟩

/-- Witness for `c5_timeout_behavior`: gold times out, predicted returns
one document. -/
theorem c5_witness :
    execute_query
      (fun _ q => if q = "g" then ShellOutcome.timeout
        else ShellOutcome.completed "" "R")
      (fun s => if s = "R" then some (JVal.arr [JVal.obj [("a", JVal.num 1)]]) else none)
      "d" "g" = [] ∧
    (compare
      (fun _ q => if q = "g" then ShellOutcome.timeout
        else ShellOutcome.completed "" "R")
      (fun s => if s = "R" then some (JVal.arr [JVal.obj [("a", JVal.num 1)]]) else none)
      (fun _ => none) "g" "p" "d").EX = false ∧
    (compare
      (fun _ q => if q = "g" then ShellOutcome.timeout
        else ShellOutcome.completed "" "R")
      (fun s => if s = "R" then some (JVal.arr [JVal.obj [("a", JVal.num 1)]]) else none)
      (fun _ => none) "g" "p" "d").EFM = true ∧
    (compare
      (fun _ q => if q = "g" then ShellOutcome.timeout
        else ShellOutcome.completed "" "R")
      (fun s => if s = "R" then some (JVal.arr [JVal.obj [("a", JVal.num 1)]]) else none)
      (fun _ => none) "g" "p" "d").EVM = true := by
  have hp : execute_query
      (fun _ q => if q = "g" then ShellOutcome.timeout
        else ShellOutcome.completed "" "R")
      (fun s => if s = "R" then some (JVal.arr [JVal.obj [("a", JVal.num 1)]]) else none)
      "d" "p" = [JVal.obj [("a", JVal.num 1)]] := rfl
  have hne : execute_query
      (fun _ q => if q = "g" then ShellOutcome.timeout
        else ShellOutcome.completed "" "R")
      (fun s => if s = "R" then some (JVal.arr [JVal.obj [("a", JVal.num 1)]]) else none)
      "d" "p" ≠ [] := by
    rw [hp]
    simp
  have h := c5_timeout_behavior
    (fun _ q => if q = "g" then ShellOutcome.timeout
      else ShellOutcome.completed "" "R")
    (fun s => if s = "R" then some (JVal.arr [JVal.obj [("a", JVal.num 1)]]) else none)
    (fun _ => none) "d" "g" "p" (by decide)
  exact ⟨h.1, (h.2.2 hne).1, (h.2.2 hne).2.1, (h.2.2 hne).2.2⟩

/- ## C2: EFM compares field unions over the zipped prefix only -/

/-- C2 (amended): EFM = 1 iff the union of all field names appearing
(recursively) in the documents of the *zipped, min-length prefix* of the
gold result equals the corresponding union for the predicted result.
Documents beyond the length of the shorter result list are ignored,
because the code collects fields inside `for res1, res2 in zip(...)`. -/
theorem c2_efm_zipped_prefix
    (outco : String → String → ShellOutcome) (jsonParse : String → Option JVal)
    (schema : String → Option (List String)) (q1 q2 db : String) :
    ((compare outco jsonParse schema q1 q2 db).EFM = true ↔
      (∀ k : String,
        k ∈ fieldNamesList ((execute_query outco jsonParse db q1).take
          (min (execute_query outco jsonParse db q1).length
            (execute_query outco jsonParse db q2).length)) ↔
        k ∈ fieldNamesList ((execute_query outco jsonParse db q2).take
          (min (execute_query outco jsonParse db q1).length
            (execute_query outco jsonParse db q2).length)))) := by
  have hEFM : (compare outco jsonParse schema q1 q2 db).EFM =
      strSetEq
        (efmEvmLoop ((execute_query outco jsonParse db q1).zip
          (execute_query outco jsonParse db q2)) [] [] true).1
        (efmEvmLoop ((execute_query outco jsonParse db q1).zip
          (execute_query outco jsonParse db q2)) [] [] true).2.1 := rfl
  rw [hEFM, strSetEq_iff]
  apply forall_congr'
  intro k
  rw [(efmEvmLoop_fields _ _ _ _ k).1, (efmEvmLoop_fields _ _ _ _ k).2,
    zip_map_fst_take, zip_map_snd_take]
  simp

/-- C2 counterexample: gold executes to `[{"a":1}]`, predicted to
`[{"a":1},{"b":2}]`.  The overall unions of field names differ (`b` only
appears in the predicted result, in a document beyond the shorter length),
yet EFM = 1 because the loop only walks the zipped prefix. -/
theorem c2_counterexample :
    (compare (fun _ q => ShellOutcome.completed "" q)
      (fun s =>
        if s = "g" then some (JVal.arr [JVal.obj [("a", JVal.num 1)]])
        else if s = "p" then
          some (JVal.arr [JVal.obj [("a", JVal.num 1)], JVal.obj [("b", JVal.num 2)]])
        else none)
      (fun _ => none) "g" "p" "d").EFM = true ∧
    "b" ∈ fieldNamesList (execute_query (fun _ q => ShellOutcome.completed "" q)
      (fun s =>
        if s = "g" then some (JVal.arr [JVal.obj [("a", JVal.num 1)]])
        else if s = "p" then
          some (JVal.arr [JVal.obj [("a", JVal.num 1)], JVal.obj [("b", JVal.num 2)]])
        else none) "d" "p") ∧
    "b" ∉ fieldNamesList (execute_query (fun _ q => ShellOutcome.completed "" q)
      (fun s =>
        if s = "g" then some (JVal.arr [JVal.obj [("a", JVal.num 1)]])
        else if s = "p" then
          some (JVal.arr [JVal.obj [("a", JVal.num 1)], JVal.obj [("b", JVal.num 2)]])
        else none) "d" "g") :=
  ⟨by decide, by decide, by decide⟩

/- ## C10: `execute_query` with `get_str=False` never raises -/

/-- C10: with `get_str=False`, `execute_query` is a total function into
lists (no exception can propagate: every handler returns a value): a
timeout yields `[]`, any other exception yields `[]`, non-empty stderr
yields `[]`, an `__QUERY_ERROR__:` marker yields `[]`, empty stdout yields
`[]`, a JSON parse failure yields `[]`, a parsed JSON list is returned
as-is, and a parsed non-list JSON value is wrapped in a one-element
list. -/
theorem c10_execute_query_total (jsonParse : String → Option JVal) :
    (handle_outcome jsonParse ShellOutcome.timeout = []) ∧
    (∀ m, handle_outcome jsonParse (ShellOutcome.err m) = []) ∧
    (∀ se so, se ≠ "" → handle_outcome jsonParse (ShellOutcome.completed se so) = []) ∧
    (∀ so, lstartsWith "__QUERY_ERROR__:".data (pyStrip so).data = true →
      handle_outcome jsonParse (ShellOutcome.completed "" so) = []) ∧
    (∀ so, lstartsWith "__QUERY_ERROR__:".data (pyStrip so).data = false → pyStrip so = "" →
      handle_outcome jsonParse (ShellOutcome.completed "" so) = []) ∧
    (∀ so, lstartsWith "__QUERY_ERROR__:".data (pyStrip so).data = false → pyStrip so ≠ "" →
      jsonParse (pyStrip so) = none →
      handle_outcome jsonParse (ShellOutcome.completed "" so) = []) ∧
    (∀ so xs, lstartsWith "__QUERY_ERROR__:".data (pyStrip so).data = false → pyStrip so ≠ "" →
      jsonParse (pyStrip so) = some (JVal.arr xs) →
      handle_outcome jsonParse (ShellOutcome.completed "" so) = xs) ∧
    (∀ so v, lstartsWith "__QUERY_ERROR__:".data (pyStrip so).data = false → pyStrip so ≠ "" →
      jsonParse (pyStrip so) = some v → (∀ xs, v ≠ JVal.arr xs) →
      handle_outcome jsonParse (ShellOutcome.completed "" so) = [v]) := by
  refine ⟨rfl, fun m => rfl, ?_, ?_, ?_, ?_, ?_, ?_⟩
  · intro se so hse
    simp [handle_outcome, hse]
  · intro so hmark
    simp [handle_outcome, hmark]
  · intro so hmark hempty
    simp [handle_outcome, hmark, hempty]
  · intro so hmark hne hparse
    simp [handle_outcome, hmark, hne, hparse]
  · intro so xs hmark hne hparse
    simp [handle_outcome, hmark, hne, hparse]
  · intro so v hmark hne hparse hnotarr
    cases v with
    | arr xs => exact absurd rfl (hnotarr xs)
    | str s => simp [handle_outcome, hmark, hne, hparse]
    | num n => simp [handle_outcome, hmark, hne, hparse]
    | bool b => simp [handle_outcome, hmark, hne, hparse]
    | null => simp [handle_outcome, hmark, hne, hparse]
    | obj l => simp [handle_outcome, hmark, hne, hparse]

/-- Witness for `c10_execute_query_total` at concrete outcomes: stderr
set, error marker, parse failure, a JSON list, and a scalar result. -/
theorem c10_witness :
    handle_outcome (fun _ => none) (ShellOutcome.completed "boom" "x") = [] ∧
    handle_outcome (fun _ => none) (ShellOutcome.completed "" " __QUERY_ERROR__:oops ") = [] ∧
    handle_outcome (fun _ => none) (ShellOutcome.completed "" "notjson") = [] ∧
    handle_outcome (fun _ => some (JVal.arr [JVal.num 3])) (ShellOutcome.completed "" "[3]") =
      [JVal.num 3] ∧
    handle_outcome (fun _ => some (JVal.num 7)) (ShellOutcome.completed "" "7") =
      [JVal.num 7] := by
  refine ⟨?_, ?_, ?_, ?_, ?_⟩
  · exact (c10_execute_query_total (fun _ => none)).2.2.1 "boom" "x" (by decide)
  · exact (c10_execute_query_total (fun _ => none)).2.2.2.1 " __QUERY_ERROR__:oops " (by decide)
  · exact (c10_execute_query_total (fun _ => none)).2.2.2.2.2.1 "notjson" (by decide) (by decide) rfl
  · exact (c10_execute_query_total (fun _ => some (JVal.arr [JVal.num 3]))).2.2.2.2.2.2.1
      "[3]" [JVal.num 3] (by decide) (by decide) rfl
  · exact (c10_execute_query_total (fun _ => some (JVal.num 7))).2.2.2.2.2.2.2
      "7" (JVal.num 7) (by decide) (by decide) rfl (fun xs h => JVal.noConfusion h)

/- ## Freeze/thaw (`metric2.py` 239-256) -/

/-- The hashable values produced by `QueryComparator._freeze`: scalars,
plus Python tuples (dicts and lists both freeze to tuples; a frozen dict
entry is itself a two-element tuple whose first component is a string). -/
inductive Frozen where
  | str (s : String)
  | num (n : Int)
  | bool (b : Bool)
  | null
  | tup (elems : List Frozen)

/-- Insertion step of `sorted(...)` over `(key, frozen-value)` pairs.
With duplicate-free keys (every Python dict) the sort order is the key
order, so comparing keys alone is faithful. -/
def insertByKey (p : String × Frozen) : List (String × Frozen) → List (String × Frozen)
  | [] => [p]
  | q :: rest => if p.1 ≤ q.1 then p :: q :: rest else q :: insertByKey p rest

def sortByKey : List (String × Frozen) → List (String × Frozen)
  | [] => []
  | p :: rest => insertByKey p (sortByKey rest)

mutual
/-- `QueryComparator._freeze` (metric2.py 239-247): dicts become sorted
tuples of `(key, frozen value)` pairs, lists become tuples of frozen
elements, scalars are unchanged.  (The tuple input branch cannot occur for
values built from dicts/lists/scalars, which is the claim's scope.) -/
def freeze : JVal → Frozen
  | .str s => .str s
  | .num n => .num n
  | .bool b => .bool b
  | .null => .null
  | .arr l => .tup (freezeList l)
  | .obj l =>
    .tup ((sortByKey (freezeFields l)).map (fun p => .tup [.str p.1, p.2]))

def freezeList : List JVal → List Frozen
  | [] => []
  | x :: xs => freeze x :: freezeList xs

def freezeFields : List (String × JVal) → List (String × Frozen)
  | [] => []
  | (k, v) :: rest => (k, freeze v) :: freezeFields rest
end

/-- The per-element test of `_thaw`'s heuristic:
`isinstance(i, tuple) and len(i) == 2 and isinstance(i[0], str)`. -/
def isPairLike : Frozen → Bool
  | .tup [.str _, _] => true
  | _ => false

mutual
/-- `QueryComparator._thaw` (metric2.py 249-256): a tuple all of whose
elements look like `(string, value)` pairs is rebuilt as a dict (the
`all(...)` heuristic — vacuously true for the empty tuple), otherwise as a
list; scalars are unchanged. -/
def thaw : Frozen → JVal
  | .str s => .str s
  | .num n => .num n
  | .bool b => .bool b
  | .null => .null
  | .tup xs =>
    if xs.all isPairLike then .obj (thawPairs xs)
    else .arr (thawList xs)

def thawList : List Frozen → List JVal
  | [] => []
  | x :: xs => thaw x :: thawList xs

/-- The dict comprehension `{k: _thaw(v) for k, v in obj}`; the fallthrough
branch is unreachable under the `all(isPairLike)` guard. -/
def thawPairs : List Frozen → List (String × JVal)
  | [] => []
  | .tup [.str k, v] :: rest => (k, thaw v) :: thawPairs rest
  | _ :: rest => thawPairs rest
end

/-- A two-element list whose first element is a string — exactly the
values whose frozen image satisfies `isPairLike`. -/
def isStrPairShape : JVal → Bool
  | .arr [.str _, _] => true
  | _ => false

mutual
/-- The domain on which thaw∘freeze is the identity: object keys are
duplicate-free, and every list contains at least one element that is not a
string-headed pair (so the `all(isPairLike)` heuristic of `_thaw` does not
misread its frozen image as a dict). -/
def goodB : JVal → Bool
  | .obj l => nodupKeysB (keysOf l) && goodFieldsB l
  | .arr l => !(l.all isStrPairShape) && goodListB l
  | _ => true

def goodListB : List JVal → Bool
  | [] => true
  | x :: xs => goodB x && goodListB xs

def goodFieldsB : List (String × JVal) → Bool
  | [] => true
  | (_, v) :: rest => goodB v && goodFieldsB rest
end

theorem goodListB_mem {l : List JVal} (hw : goodListB l = true) {x : JVal}
    (h : x ∈ l) : goodB x = true := by
  induction l with
  | nil => simp at h
  | cons hd tl ih =>
    rw [goodListB, Bool.and_eq_true] at hw
    rcases List.mem_cons.mp h with h0 | h0
    · exact h0 ▸ hw.1
    · exact ih hw.2 h0

theorem goodFieldsB_mem {l : List (String × JVal)} (hw : goodFieldsB l = true)
    {k : String} {v : JVal} (h : (k, v) ∈ l) : goodB v = true := by
  induction l with
  | nil => simp at h
  | cons hd tl ih =>
    obtain ⟨k0, v0⟩ := hd
    rw [goodFieldsB, Bool.and_eq_true] at hw
    rcases List.mem_cons.mp h with h0 | h0
    · obtain ⟨_, h2⟩ := Prod.mk.injEq .. ▸ h0
      exact h2 ▸ hw.1
    · exact ih hw.2 h0

theorem freeze_eq_str_iff (x : JVal) (s : String) :
    freeze x = Frozen.str s ↔ x = JVal.str s := by
  cases x <;> simp [freeze]

theorem isPairLike_freeze (x : JVal) : isPairLike (freeze x) = isStrPairShape x := by
  cases x with
  | str s => rfl
  | num n => rfl
  | bool b => rfl
  | null => rfl
  | arr l =>
    cases l with
    | nil => rfl
    | cons a tl =>
      cases tl with
      | nil =>
        show isPairLike (.tup [freeze a]) = isStrPairShape (.arr [a])
        cases a <;> rfl
      | cons b tl2 =>
        cases tl2 with
        | nil =>
          show isPairLike (.tup [freeze a, freeze b]) = isStrPairShape (.arr [a, b])
          cases a with
          | str s => rfl
          | num n => rfl
          | bool v => rfl
          | null => rfl
          | arr m => cases b <;> rfl
          | obj m => cases b <;> rfl
        | cons c tl3 =>
          show isPairLike (.tup (freeze a :: freeze b :: freeze c :: freezeList tl3)) =
            isStrPairShape (.arr (a :: b :: c :: tl3))
          cases a <;> rfl
  | obj l =>
    show isPairLike (.tup ((sortByKey (freezeFields l)).map
      (fun p => .tup [.str p.1, p.2]))) = false
    rcases hs : (sortByKey (freezeFields l)).map
        (fun p => Frozen.tup [Frozen.str p.1, p.2]) with _ | ⟨a, tl⟩
    · rw [hs]
      rfl
    · obtain ⟨p, _, hp⟩ := List.mem_map.mp (hs ▸ List.mem_cons_self a tl)
      rw [hs, ← hp]
      cases tl with
      | nil => rfl
      | cons b tl2 =>
        cases tl2 with
        | nil => rfl
        | cons c tl3 => rfl

theorem freezeList_all_isPairLike (l : List JVal) :
    (freezeList l).all isPairLike = l.all isStrPairShape := by
  induction l with
  | nil => rfl
  | cons x xs ih =>
    show ((isPairLike (freeze x)) && (freezeList xs).all isPairLike) = _
    rw [isPairLike_freeze, ih]
    rfl

theorem mem_insertByKey {p q : String × Frozen} {l : List (String × Frozen)} :
    p ∈ insertByKey q l ↔ (p = q ∨ p ∈ l) := by
  induction l with
  | nil => simp [insertByKey]
  | cons hd tl ih =>
    unfold insertByKey
    by_cases hle : q.1 ≤ hd.1
    · rw [if_pos hle]
      simp [List.mem_cons]
    · rw [if_neg hle]
      rw [List.mem_cons, ih, List.mem_cons]
      tauto

theorem mem_sortByKey {p : String × Frozen} {l : List (String × Frozen)} :
    p ∈ sortByKey l ↔ p ∈ l := by
  induction l with
  | nil => simp [sortByKey]
  | cons hd tl ih =>
    rw [sortByKey, mem_insertByKey, ih, List.mem_cons]

theorem mem_freezeFields {l : List (String × JVal)} {k : String} {f : Frozen} :
    (k, f) ∈ freezeFields l ↔ ∃ v, (k, v) ∈ l ∧ f = freeze v := by
  induction l with
  | nil => simp [freezeFields]
  | cons hd tl ih =>
    obtain ⟨k0, v0⟩ := hd
    rw [freezeFields, List.mem_cons, ih]
    constructor
    · rintro (h | ⟨v, hv, rfl⟩)
      · obtain ⟨h1, h2⟩ := Prod.mk.injEq .. ▸ h
        exact ⟨v0, by simp [h1], h2⟩
      · exact ⟨v, List.mem_cons_of_mem _ hv, rfl⟩
    · rintro ⟨v, hv, rfl⟩
      rcases List.mem_cons.mp hv with h | h
      · obtain ⟨h1, h2⟩ := Prod.mk.injEq .. ▸ h
        left
        rw [h1, h2]
      · exact Or.inr ⟨v, h, rfl⟩

theorem thawPairs_map (X : List (String × Frozen)) :
    thawPairs (X.map (fun p => Frozen.tup [Frozen.str p.1, p.2])) =
      X.map (fun p => (p.1, thaw p.2)) := by
  induction X with
  | nil => rfl
  | cons p rest ih =>
    obtain ⟨k, f⟩ := p
    show thawPairs (Frozen.tup [Frozen.str k, f] :: _) = _
    rw [thawPairs, ih]
    rfl

theorem thawList_freezeList (l : List JVal)
    (hpt : ∀ x ∈ l, thaw (freeze x) = x) : thawList (freezeList l) = l := by
  induction l with
  | nil => rfl
  | cons x xs ih =>
    show thaw (freeze x) :: thawList (freezeList xs) = x :: xs
    rw [hpt x (List.mem_cons_self _ _), ih (fun y hy => hpt y (List.mem_cons_of_mem _ hy))]


theorem deep_equal_obj (a b : List (String × JVal)) :
    deep_equal (JVal.obj a) (JVal.obj b) = (sameKeySet a b && deepEqFields a b) := by
  simp [deep_equal]

theorem mem_keysOf_iff {X : List (String × JVal)} {k : String} :
    k ∈ keysOf X ↔ ∃ w, (k, w) ∈ X := by
  unfold keysOf
  rw [List.mem_map]
  constructor
  · rintro ⟨⟨k0, w⟩, hm, rfl⟩
    exact ⟨w, hm⟩
  · rintro ⟨w, hm⟩
    exact ⟨(k, w), hm, rfl⟩

theorem map_fst_freezeFields (l : List (String × JVal)) :
    (freezeFields l).map Prod.fst = l.map Prod.fst := by
  induction l with
  | nil => rfl
  | cons hd tl ih =>
    obtain ⟨k, v⟩ := hd
    show k :: (freezeFields tl).map Prod.fst = k :: tl.map Prod.fst
    rw [ih]

/-- C9 (amended): `_thaw` is a left inverse of `_freeze` — up to Python
equality of dicts, i.e. the code's own deep equality — exactly on values
all of whose lists contain at least one element that is not a two-element
list with a string first component (and whose dicts have duplicate-free
keys, as every Python dict does).  On other lists, including the empty
list and lists made solely of string-headed pairs, `_thaw` rebuilds a
dict instead (see the counterexample). -/
theorem c9_thaw_freeze_roundtrip : ∀ v : JVal, goodB v = true →
    deep_equal (thaw (freeze v)) v = true := by
  have H : ∀ n : Nat, ∀ v : JVal, sizeOf v ≤ n → goodB v = true →
      deep_equal (thaw (freeze v)) v = true := by
    intro n
    induction n with
    | zero =>
      intro v hsz
      exact absurd hsz (by cases v <;> simp <;> omega)
    | succ n ih =>
      intro v hsz hg
      cases v with
      | str s => simp [freeze, thaw, deep_equal]
      | num m => simp [freeze, thaw, deep_equal]
      | bool b => simp [freeze, thaw, deep_equal]
      | null => simp [freeze, thaw, deep_equal]
      | arr l =>
        have hg2 : (!(l.all isStrPairShape) && goodListB l) = true := hg
        rw [Bool.and_eq_true] at hg2
        obtain ⟨hnall, hall⟩ := hg2
        have hthaw : thaw (freeze (JVal.arr l)) = .arr (thawList (freezeList l)) := by
          show (if (freezeList l).all isPairLike then JVal.obj (thawPairs (freezeList l))
            else JVal.arr (thawList (freezeList l))) = _
          rw [freezeList_all_isPairLike]
          rw [Bool.not_eq_true'] at hnall
          rw [hnall]
          simp
        rw [hthaw, deep_equal_arr]
        have hlist : ∀ m : List JVal, (∀ x ∈ m, x ∈ l) →
            deepEqList (thawList (freezeList m)) m = true := by
          intro m
          induction m with
          | nil =>
            intro _
            show deepEqList ([] : List JVal) [] = true
            rw [deepEqList]
          | cons x xs ihm =>
            intro hsub
            show deepEqList (thaw (freeze x) :: thawList (freezeList xs)) (x :: xs) = true
            rw [deepEqList, Bool.and_eq_true]
            have hx : x ∈ l := hsub x (List.mem_cons_self _ _)
            have hszx : sizeOf x < sizeOf (JVal.arr l) := by
              have := sizeOf_lt_of_mem_arrList hx; simp; omega
            refine ⟨ih x (by omega) (goodListB_mem hall hx), ?_⟩
            exact ihm (fun y hy => hsub y (List.mem_cons_of_mem _ hy))
        exact hlist l (fun x hx => hx)
      | obj l =>
        have hg2 : (nodupKeysB (keysOf l) && goodFieldsB l) = true := hg
        rw [Bool.and_eq_true] at hg2
        obtain ⟨hnd, hgf⟩ := hg2
        have hallp : ((sortByKey (freezeFields l)).map
            (fun p => Frozen.tup [Frozen.str p.1, p.2])).all isPairLike = true := by
          rw [List.all_eq_true]
          intro x hx
          obtain ⟨p, _, hp⟩ := List.mem_map.mp hx
          rw [← hp]
          rfl
        have hthaw : thaw (freeze (JVal.obj l)) =
            .obj ((sortByKey (freezeFields l)).map (fun p => (p.1, thaw p.2))) := by
          show (if ((sortByKey (freezeFields l)).map
              (fun p => Frozen.tup [Frozen.str p.1, p.2])).all isPairLike then
              JVal.obj (thawPairs ((sortByKey (freezeFields l)).map
                (fun p => Frozen.tup [Frozen.str p.1, p.2])))
            else JVal.arr (thawList ((sortByKey (freezeFields l)).map
              (fun p => Frozen.tup [Frozen.str p.1, p.2])))) = _
          rw [hallp]
          rw [thawPairs_map]
          simp
        rw [hthaw, deep_equal_obj, Bool.and_eq_true]
        have hmemL2 : ∀ k : String, ∀ w : JVal,
            ((k, w) ∈ (sortByKey (freezeFields l)).map (fun p => (p.1, thaw p.2)) ↔
              ∃ v0, (k, v0) ∈ l ∧ w = thaw (freeze v0)) := by
          intro k w
          constructor
          · intro hm
            obtain ⟨p, hpmem, hp⟩ := List.mem_map.mp hm
            obtain ⟨hk, hw⟩ := Prod.mk.injEq .. ▸ hp.symm
            have hp2 : (k, p.2) ∈ freezeFields l := by
              rw [hk]
              exact mem_sortByKey.mp (by
                have h2 : (p.1, p.2) = p := rfl
                rw [h2]
                exact hpmem)
            obtain ⟨v0, hv0, hfr⟩ := mem_freezeFields.mp hp2
            exact ⟨v0, hv0, by rw [hw, hfr]⟩
          · rintro ⟨v0, hv0, rfl⟩
            refine List.mem_map.mpr ⟨(k, freeze v0), ?_, rfl⟩
            exact mem_sortByKey.mpr (mem_freezeFields.mpr ⟨v0, hv0, rfl⟩)
        constructor
        · rw [sameKeySet_iff]
          intro k
          rw [mem_keysOf_iff, mem_keysOf_iff]
          constructor
          · rintro ⟨w, hw⟩
            obtain ⟨v0, hv0, _⟩ := (hmemL2 k w).mp hw
            exact ⟨v0, hv0⟩
          · rintro ⟨v0, hv0⟩
            exact ⟨thaw (freeze v0), (hmemL2 k _).mpr ⟨v0, hv0, rfl⟩⟩
        · rw [deepEqFields_iff]
          rintro ⟨k, w⟩ hp
          obtain ⟨v0, hv0, rfl⟩ := (hmemL2 k w).mp hp
          refine ⟨v0, lookupJ_of_mem hnd hv0, ?_⟩
          have hszv : sizeOf v0 < sizeOf (JVal.obj l) := by
            have := sizeOf_snd_lt_of_mem_objList hv0; simp; omega
          exact ih v0 (by omega) (goodFieldsB_mem hgf hv0)
  exact fun v => H (sizeOf v) v (Nat.le_refl _)

/-- C9 counterexample: `_thaw(_freeze([]))` is the empty dict, not the
empty list, and a list made of two-element string-headed pairs is rebuilt
as a dict — so `_thaw` is not a left inverse of `_freeze` on those inputs,
which the claim explicitly includes. -/
theorem c9_counterexample :
    thaw (freeze (JVal.arr [])) = JVal.obj [] ∧
    thaw (freeze (JVal.arr [])) ≠ JVal.arr [] ∧
    thaw (freeze (JVal.arr [JVal.arr [JVal.str "a", JVal.num 1]])) =
      JVal.obj [("a", JVal.num 1)] ∧
    thaw (freeze (JVal.arr [JVal.arr [JVal.str "a", JVal.num 1]])) ≠
      JVal.arr [JVal.arr [JVal.str "a", JVal.num 1]] := by
  refine ⟨rfl, ?_, rfl, ?_⟩
  · intro h
    rw [show thaw (freeze (JVal.arr [])) = JVal.obj [] from rfl] at h
    exact JVal.noConfusion h
  · intro h
    rw [show thaw (freeze (JVal.arr [JVal.arr [JVal.str "a", JVal.num 1]])) =
      JVal.obj [("a", JVal.num 1)] from rfl] at h
    exact JVal.noConfusion h

/-- Witness for `c9_thaw_freeze_roundtrip` at a concrete good value. -/
theorem c9_witness :
    deep_equal
      (thaw (freeze (JVal.obj [("b", JVal.num 2), ("a", JVal.arr [JVal.num 1, JVal.null])])))
      (JVal.obj [("b", JVal.num 2), ("a", JVal.arr [JVal.num 1, JVal.null])]) = true :=
  c9_thaw_freeze_roundtrip _ (by decide)

/- ## C7: result caching (`metric2.py`) vs the uncached v1 (`metric.py`) -/

/-- `_norm_cache_key` (metric2.py 258-260): `f"{db_id}||{_norm_ws(query)}"`. -/
def norm_cache_key (db q : String) : String := db ++ "||" ++ normWs q

/-- State of the `functools.lru_cache(maxsize=2048)` wrapping
`_cached_exec`: entries most-recent first, plus a log of the keys whose
body actually executed (for counting executions during a batch run). -/
structure LruState where
  entries : List (String × Frozen)
  execLog : List String

def lookupF : List (String × Frozen) → String → Option Frozen
  | [], _ => none
  | (k, v) :: rest, key => if k = key then some v else lookupF rest key

/-- Remove the (unique) entry with the given key, for the move-to-front on
a cache hit. -/
def eraseKey (key : String) : List (String × Frozen) → List (String × Frozen)
  | [] => []
  | (k, v) :: rest => if k = key then rest else (k, v) :: eraseKey key rest

/-- `_cached_exec` (metric2.py 262-310) through
`functools.lru_cache(maxsize=2048)`: `body` abstracts the function body (a
pure function of the cache key during one batch run — the PyMongo fast
path with mongosh fallback, freezing its result) and `cap` the maxsize.
A hit returns the stored value and moves the entry to most-recent; a miss
runs the body (logged), inserts the entry, and evicts the least-recent
entry when the cache exceeds its capacity. -/
def cached_exec (body : String → Frozen) (cap : Nat) (st : LruState)
    (key : String) : Frozen × LruState :=
  match lookupF st.entries key with
  | some v => (v, ⟨(key, v) :: eraseKey key st.entries, st.execLog⟩)
  | none =>
    let v := body key
    let es := (key, v) :: st.entries
    (v, ⟨if es.length > cap then es.dropLast else es, st.execLog ++ [key]⟩)

/-- `_get_query_result` (metric2.py 312-318): execute through the cache,
then thaw. -/
def get_query_result2 (body : String → Frozen) (cap : Nat) (st : LruState)
    (db q : String) : JVal × LruState :=
  let r := cached_exec body cap st (norm_cache_key db q)
  (thaw r.1, r.2)

/-- `_get_query_result` (metric.py 36-51): NO cache — the executor runs on
every call (its string-parsing branch is dead with `get_str=False`).  The
log records one entry per execution. -/
def get_query_result1 (execF : String → String → List JVal)
    (log : List (String × String)) (db q : String) :
    List JVal × List (String × String) :=
  (execF db q, log ++ [(db, q)])

/-- Cache consistency: every stored value is the body's value for its key. -/
def CacheWF (body : String → Frozen) (st : LruState) : Prop :=
  ∀ p ∈ st.entries, p.2 = body p.1

theorem mem_of_lookupF {l : List (String × Frozen)} {k : String} {v : Frozen}
    (h : lookupF l k = some v) : (k, v) ∈ l := by
  induction l with
  | nil => simp [lookupF] at h
  | cons hd tl ih =>
    obtain ⟨k0, v0⟩ := hd
    by_cases hk : k0 = k
    · simp [lookupF, hk] at h
      simp [hk, h]
    · simp [lookupF, hk] at h
      exact List.mem_cons_of_mem _ (ih h)

theorem lookupF_eq_none {l : List (String × Frozen)} {k : String}
    (h : lookupF l k = none) : k ∉ l.map Prod.fst := by
  induction l with
  | nil => simp
  | cons hd tl ih =>
    obtain ⟨k0, v0⟩ := hd
    rw [lookupF] at h
    by_cases hk : k0 = k
    · rw [if_pos hk] at h
      exact absurd h (by simp)
    · rw [if_neg hk] at h
      rw [List.map_cons, List.mem_cons]
      rintro (h1 | h1)
      · exact hk h1.symm
      · exact ih h h1

theorem cached_exec_val {body : String → Frozen} {cap : Nat} {st : LruState}
    {key : String} (hwf : CacheWF body st) :
    (cached_exec body cap st key).1 = body key := by
  unfold cached_exec
  rcases h : lookupF st.entries key with _ | v
  · rfl
  · exact hwf (key, v) (mem_of_lookupF h)

def runReqs (body : String → Frozen) (cap : Nat) : LruState → List String → LruState
  | st, [] => st
  | st, k :: ks => runReqs body cap (cached_exec body cap st k).2 ks

theorem mem_map_fst_eraseKey_of_ne {l : List (String × Frozen)} {key m : String}
    (hne : m ≠ key) (h : m ∈ l.map Prod.fst) :
    m ∈ (eraseKey key l).map Prod.fst := by
  induction l with
  | nil => simp at h
  | cons hd tl ih =>
    obtain ⟨k0, v0⟩ := hd
    rw [List.map_cons, List.mem_cons] at h
    unfold eraseKey
    by_cases hk : k0 = key
    · rw [if_pos hk]
      rcases h with h | h
      · exact absurd (h.trans hk) hne
      · exact h
    · rw [if_neg hk]
      rw [List.map_cons, List.mem_cons]
      rcases h with h | h
      · exact Or.inl h
      · exact Or.inr (ih h)

theorem map_fst_eraseKey_subset {l : List (String × Frozen)} {key m : String}
    (h : m ∈ (eraseKey key l).map Prod.fst) : m ∈ l.map Prod.fst := by
  induction l with
  | nil => simp [eraseKey] at h
  | cons hd tl ih =>
    obtain ⟨k0, v0⟩ := hd
    unfold eraseKey at h
    rw [List.map_cons, List.mem_cons]
    by_cases hk : k0 = key
    · rw [if_pos hk] at h
      exact Or.inr h
    · rw [if_neg hk] at h
      rw [List.map_cons, List.mem_cons] at h
      rcases h with h | h
      · exact Or.inl h
      · exact Or.inr (ih h)

theorem nodup_map_fst_eraseKey {l : List (String × Frozen)} {key : String}
    (h : (l.map Prod.fst).Nodup) : ((eraseKey key l).map Prod.fst).Nodup := by
  induction l with
  | nil => simp [eraseKey]
  | cons hd tl ih =>
    obtain ⟨k0, v0⟩ := hd
    rw [List.map_cons, List.nodup_cons] at h
    unfold eraseKey
    by_cases hk : k0 = key
    · rw [if_pos hk]
      exact h.2
    · rw [if_neg hk]
      rw [List.map_cons, List.nodup_cons]
      exact ⟨fun hm => h.1 (map_fst_eraseKey_subset hm), ih h.2⟩

theorem key_not_mem_eraseKey {l : List (String × Frozen)} {key : String}
    (h : (l.map Prod.fst).Nodup) : key ∉ (eraseKey key l).map Prod.fst := by
  induction l with
  | nil => simp [eraseKey]
  | cons hd tl ih =>
    obtain ⟨k0, v0⟩ := hd
    rw [List.map_cons, List.nodup_cons] at h
    unfold eraseKey
    by_cases hk : k0 = key
    · rw [if_pos hk]
      subst hk
      exact h.1
    · rw [if_neg hk]
      rw [List.map_cons, List.mem_cons]
      rintro (he | he)
      · exact hk he.symm
      · exact ih h.2 he

/-- The run invariant for the at-most-once-per-key property: the log has
no duplicates, every logged key is still cached, the cached keys are
duplicate-free, and all cached keys come from the key universe `K`. -/
def LruInv (K : Finset String) (st : LruState) : Prop :=
  st.execLog.Nodup ∧
  (∀ k ∈ st.execLog, k ∈ st.entries.map Prod.fst) ∧
  (st.entries.map Prod.fst).Nodup ∧
  (∀ k ∈ st.entries.map Prod.fst, k ∈ K)

theorem lru_step {body : String → Frozen} {cap : Nat} {K : Finset String}
    {st : LruState} {key : String} (hinv : LruInv K st) (hkey : key ∈ K)
    (hcap : K.card ≤ cap) : LruInv K (cached_exec body cap st key).2 := by
  obtain ⟨hlog, hlogmem, hnd, hsub⟩ := hinv
  unfold cached_exec
  rcases h : lookupF st.entries key with _ | v
  · -- cache miss: the body runs; no eviction can occur because the cached
    -- keys plus the new one stay within the key universe of size ≤ cap
    have hnotin : key ∉ st.entries.map Prod.fst := lookupF_eq_none h
    have hnodup2 : (key :: st.entries.map Prod.fst).Nodup :=
      List.nodup_cons.mpr ⟨hnotin, hnd⟩
    have hsub2 : ∀ x ∈ key :: st.entries.map Prod.fst, x ∈ K := by
      intro x hx
      rcases List.mem_cons.mp hx with rfl | hx
      · exact hkey
      · exact hsub x hx
    have hlen2 : (key :: st.entries.map Prod.fst).length ≤ K.card := by
      have hsubf : (key :: st.entries.map Prod.fst).toFinset ⊆ K := by
        intro x hx
        exact hsub2 x (List.mem_toFinset.mp hx)
      have hcard := Finset.card_le_card hsubf
      rwa [List.toFinset_card_of_nodup hnodup2] at hcard
    have hlen : ¬ (((key, body key) :: st.entries).length > cap) := by
      have : ((key, body key) :: st.entries).length =
          (key :: st.entries.map Prod.fst).length := by
        simp
      omega
    show LruInv K ⟨if ((key, body key) :: st.entries).length > cap
        then ((key, body key) :: st.entries).dropLast
        else (key, body key) :: st.entries, st.execLog ++ [key]⟩
    rw [if_neg hlen]
    refine ⟨?_, ?_, ?_, ?_⟩
    · have hknl : key ∉ st.execLog := fun hk => hnotin (hlogmem key hk)
      simp [List.nodup_append, hlog, hknl]
    · intro k hk
      rcases List.mem_append.mp hk with hk | hk
      · exact List.mem_cons_of_mem _ (by simpa using hlogmem k hk)
      · simp at hk
        simp [hk]
    · simpa using hnodup2
    · intro k hk
      simp at hk
      rcases hk with rfl | hk
      · exact hkey
      · exact hsub k (by simpa using hk)
  · -- cache hit: no execution, the entry moves to the front
    show LruInv K ⟨(key, v) :: eraseKey key st.entries, st.execLog⟩
    refine ⟨hlog, ?_, ?_, ?_⟩
    · intro k hk
      have hk2 := hlogmem k hk
      by_cases hke : k = key
      · simp [hke]
      · exact List.mem_cons_of_mem _ (by
          simpa using mem_map_fst_eraseKey_of_ne hke hk2)
    · rw [List.map_cons, List.nodup_cons]
      exact ⟨by simpa using key_not_mem_eraseKey hnd, nodup_map_fst_eraseKey hnd⟩
    · intro k hk
      simp at hk
      rcases hk with rfl | hk
      · exact hkey
      · exact hsub k (map_fst_eraseKey_subset (by simpa using hk))

theorem lru_run {body : String → Frozen} {cap : Nat} {K : Finset String}
    (hcap : K.card ≤ cap) :
    ∀ reqs : List String, ∀ st : LruState, LruInv K st → (∀ k ∈ reqs, k ∈ K) →
      LruInv K (runReqs body cap st reqs) := by
  intro reqs
  induction reqs with
  | nil => intro st hinv _; exact hinv
  | cons k ks ih =>
    intro st hinv hmem
    rw [runReqs]
    exact ih _ (lru_step hinv (hmem k (List.mem_cons_self _ _)) hcap)
      (fun x hx => hmem x (List.mem_cons_of_mem _ hx))

/-- C7 (amended): in metric2.py, execution results are memoized by
`(db_id, whitespace-normalized query text)`: two query texts equal after
collapsing whitespace runs and trimming map to the same cache key, so
`_get_query_result` returns identical results for them from any consistent
cache state; and during a batch run whose distinct cache keys fit inside
the LRU capacity (`maxsize=2048`), each distinct key's execution body runs
at most once (the execution log stays duplicate-free).  metric.py's
`_get_query_result`, in contrast, is uncached and re-executes on every
call — see the counterexample. -/
theorem c7_memoization (body : String → Frozen) (cap : Nat) (st : LruState)
    (db q1 q2 : String) (reqs : List String) (K : Finset String)
    (hwf : CacheWF body st) (hnorm : normWs q1 = normWs q2)
    (hreqs : ∀ k ∈ reqs, k ∈ K) (hcap : K.card ≤ cap) :
    (get_query_result2 body cap st db q1).1 =
      (get_query_result2 body cap st db q2).1 ∧
    (runReqs body cap ⟨[], []⟩ reqs).execLog.Nodup := by
  constructor
  · show thaw (cached_exec body cap st (norm_cache_key db q1)).1 =
      thaw (cached_exec body cap st (norm_cache_key db q2)).1
    rw [cached_exec_val hwf, cached_exec_val hwf]
    unfold norm_cache_key
    rw [hnorm]
  · have hinv0 : LruInv K ⟨[], []⟩ :=
      ⟨List.nodup_nil, by simp, by simp, by simp⟩
    exact (lru_run hcap reqs ⟨[], []⟩ hinv0 hreqs).1

/-- C7 counterexample: metric.py's `_get_query_result` performs no
memoization — two calls with the identical `(db_id, query)` run the
executor twice, so the underlying query is NOT executed at most once per
distinct key during a batch run. -/
theorem c7_counterexample :
    (get_query_result1 (fun _ _ => [])
      (get_query_result1 (fun _ _ => []) [] "d" "q").2 "d" "q").2 =
      [("d", "q"), ("d", "q")] ∧
    ¬ (get_query_result1 (fun _ _ => [])
      (get_query_result1 (fun _ _ => []) [] "d" "q").2 "d" "q").2.Nodup :=
  ⟨rfl, by decide⟩

/-- Witness for `c7_memoization` at a concrete environment: two
whitespace-variants of the same query text, and a request list with a
repeated key inside a capacity-2 cache. -/
theorem c7_witness :
    (get_query_result2 (fun _ => Frozen.null) 2 ⟨[], []⟩ "d" "a  b").1 =
      (get_query_result2 (fun _ => Frozen.null) 2 ⟨[], []⟩ "d" " a b ").1 ∧
    (runReqs (fun _ => Frozen.null) 2 ⟨[], []⟩ ["k1", "k2", "k1"]).execLog.Nodup :=
  c7_memoization (fun _ => Frozen.null) 2 ⟨[], []⟩ "d" "a  b" " a b "
    ["k1", "k2", "k1"] ({"k1", "k2"} : Finset String)
    (fun p hp => absurd hp (List.not_mem_nil p))
    (by decide) (by decide) (by decide)

/- ## Query-field parsing (`mongodb_field_parser.py`)

`MongoFieldParser` instance state and the per-stage walkers.  Payloads on
which Python would raise a runtime `TypeError`/`AttributeError` (e.g. a
non-string `localField`) abort the pipeline walk through the `except` in
`_parse_aggregate_query`; the embedding models those malformed payloads as
no-ops, which agrees with the code on every well-typed stage and only
drops the tail of a walk the code abandons.  Each dict iteration is split
into a per-entry `*_step` function and a fold over the entries. -/

structure FPState where
  collectionFields : List (String × List String)
  currentCollection : String
  computedFields : List String

/-- `_should_exclude_field` (mongodb_field_parser.py 64-73): `$$`
variables, `_id.` subfields, and fields marked computed — by exact set
membership, not by prefix. -/
def should_exclude_field (st : FPState) (field : String) : Bool :=
  lstartsWith "$$".data field.data ||
  lstartsWith "_id.".data field.data ||
  st.computedFields.contains field

/-- Add `f` to the field set of collection `c` in the per-collection map. -/
def collInsert : List (String × List String) → String → String → List (String × List String)
  | [], c, f => [(c, [f])]
  | (c0, fs) :: rest, c, f =>
    if c0 = c then (c0, setAdd fs f) :: rest
    else (c0, fs) :: collInsert rest c f

/-- `_add_field` (mongodb_field_parser.py 51-62). -/
def add_field (st : FPState) (field : String) (coll : Option String) : FPState :=
  let c := coll.getD st.currentCollection
  if should_exclude_field st field then st
  else { st with collectionFields := collInsert st.collectionFields c field }

/-- `_add_computed_field` (mongodb_field_parser.py 75-77). -/
def add_computed_field (st : FPState) (field : String) : FPState :=
  { st with computedFields := setAdd st.computedFields field }

/-- The shared `$`-reference loop of `_extract_group_fields` and
`_extract_projection_fields`: for each entry whose value is a string
starting with `$`, add the value minus its first character. -/
def dollar_ref_fields (m : List (String × JVal)) (st : FPState) : FPState :=
  m.foldl (fun s p =>
    match p.2 with
    | .str f => if lstartsWith "$".data f.data then add_field s (f.drop 1) none else s
    | _ => s) st

/-- The `as` marking of `_extract_lookup_fields` (272-273). -/
def lookup_as_step (l : List (String × JVal)) (st : FPState) : FPState :=
  match lookupJ l "as" with
  | some (.str a) => add_computed_field st a
  | _ => st

/-- The `localField` credit of `_extract_lookup_fields` (275-276). -/
def lookup_local_step (l : List (String × JVal)) (st : FPState) : FPState :=
  match lookupJ l "localField" with
  | some (.str f) => add_field st f none
  | _ => st

/-- The `foreignField`-against-`from` credit of `_extract_lookup_fields`
(277-278). -/
def lookup_foreign_step (l : List (String × JVal)) (st : FPState) : FPState :=
  match lookupJ l "foreignField", lookupJ l "from" with
  | some (.str f), some (.str c) => add_field st f (some c)
  | _, _ => st

/-- One entry of `_extract_group_fields` (mongodb_field_parser.py
227-244): every key other than `_id` is first marked computed; the `_id`
value contributes its `$`-references, and an accumulator document
contributes its `$`-referenced operand. -/
def group_step (key : String) (value : JVal) (st : FPState) : FPState :=
  if key = "_id" then
    match value with
    | .str s =>
      if lstartsWith "$".data s.data then add_field st (s.drop 1) none else st
    | .obj m => dollar_ref_fields m st
    | _ => st
  else
    match value with
    | .obj m => dollar_ref_fields m (add_computed_field st key)
    | _ => add_computed_field st key

def group_entries : List (String × JVal) → FPState → FPState
  | [], st => st
  | (key, value) :: rest, st => group_entries rest (group_step key value st)

def extract_group_fields (v : JVal) (st : FPState) : FPState :=
  match v with
  | .obj l => group_entries l st
  | _ => st

/-- One entry of `_extract_projection_fields` (mongodb_field_parser.py
246-261): truthy scalar values credit the key itself, `$`-strings credit
the referenced field, expression documents mark the key computed while
crediting `$`-referenced operands. -/
def proj_step (key : String) (value : JVal) (st : FPState) : FPState :=
  if lstartsWith "$".data key.data then st
  else
    match value with
    | .num n => if n ≠ 0 then add_field st key none else st
    | .bool b => if b then add_field st key none else st
    | .str s =>
      if lstartsWith "$".data s.data then add_field st (s.drop 1) none else st
    | .obj m => dollar_ref_fields m (add_computed_field st key)
    | _ => st

def proj_entries : List (String × JVal) → FPState → FPState
  | [], st => st
  | (key, value) :: rest, st => proj_entries rest (proj_step key value st)

def extract_projection_fields (v : JVal) (st : FPState) : FPState :=
  match v with
  | .obj l => proj_entries l st
  | _ => st

/-- The `$sort` branch of `_parse_aggregate_stage` (176-181). -/
def sort_keys_add (ks : List String) (st : FPState) : FPState :=
  ks.foldl (fun s k =>
    if lstartsWith "$".data k.data then s else add_field s k none) st

/-- The `$unwind` branch of `_parse_aggregate_stage` (170-175). -/
def unwind_field (v : JVal) (st : FPState) : FPState :=
  match v with
  | .str s => add_field st (stripDollars s) none
  | .obj m =>
    match lookupJ m "path" with
    | some (.str p) => add_field st (stripDollars p) none
    | _ => st
  | _ => st

mutual
/-- `_parse_aggregate_stage` (mongodb_field_parser.py 153-183).  `fuel`
only bounds the recursion depth (through `$lookup` sub-pipelines and
nested documents, all structurally smaller); it is decremented on every
call, so any fuel beyond the total pipeline size is enough. -/
def parse_aggregate_stage : Nat → JVal → FPState → FPState
  | 0, _, st => st
  | fuel + 1, .obj l, st => parse_stage_entries fuel l st
  | _ + 1, _, st => st

def parse_stage_entries : Nat → List (String × JVal) → FPState → FPState
  | 0, _, st => st
  | _ + 1, [], st => st
  | fuel + 1, (op, value) :: rest, st =>
    parse_stage_entries fuel rest (parse_stage_step fuel op value st)

/-- The operator dispatch of `_parse_aggregate_stage` (158-183). -/
def parse_stage_step : Nat → String → JVal → FPState → FPState
  | 0, _, _, st => st
  | fuel + 1, op, value, st =>
    if op = "$match" then
      match value with
      | .obj m =>
        if (keysOf m).contains "$expr" then
          match lookupJ m "$expr" with
          | some ev => handle_expr_operator fuel ev st
          | none => st
        else extract_fields_from_dict fuel (.obj m) "" st
      | w => extract_fields_from_dict fuel w "" st
    else if op = "$group" then extract_group_fields value st
    else if op = "$project" then extract_projection_fields value st
    else if op = "$lookup" then extract_lookup_fields fuel value st
    else if op = "$unwind" then unwind_field value st
    else if op = "$sort" then
      match value with
      | .obj m => sort_keys_add (keysOf m) st
      | _ => st
    else st

/-- `_handle_expr_operator` (mongodb_field_parser.py 185-200). -/
def handle_expr_operator : Nat → JVal → FPState → FPState
  | 0, _, st => st
  | fuel + 1, .obj l, st => handle_expr_entries fuel l st
  | _ + 1, _, st => st

def handle_expr_entries : Nat → List (String × JVal) → FPState → FPState
  | 0, _, st => st
  | _ + 1, [], st => st
  | fuel + 1, (_, value) :: rest, st =>
    handle_expr_entries fuel rest (expr_value_step fuel value st)

/-- One value of `_handle_expr_operator`: a list is scanned item-wise, a
`$`-string contributes its stripped path (checked against exclusion both
before and inside `_add_field`), a document is walked for fields. -/
def expr_value_step : Nat → JVal → FPState → FPState
  | 0, _, st => st
  | fuel + 1, .arr items, st => expr_items fuel items st
  | _ + 1, .str s, st =>
    if lstartsWith "$".data s.data then
      (if should_exclude_field st s then st
       else add_field st (stripDollars s) none)
    else st
  | fuel + 1, .obj m, st => extract_fields_from_dict fuel (.obj m) "" st
  | _ + 1, _, st => st

def expr_items : Nat → List JVal → FPState → FPState
  | 0, _, st => st
  | _ + 1, [], st => st
  | fuel + 1, item :: rest, st =>
    expr_items fuel rest (expr_item_step fuel item st)

def expr_item_step : Nat → JVal → FPState → FPState
  | 0, _, st => st
  | _ + 1, .str s, st =>
    if lstartsWith "$".data s.data then
      (if should_exclude_field st s then st
       else add_field st (stripDollars s) none)
    else st
  | fuel + 1, .obj m, st => extract_fields_from_dict fuel (.obj m) "" st
  | _ + 1, _, st => st

/-- `_extract_fields_from_dict` (mongodb_field_parser.py 202-225). -/
def extract_fields_from_dict : Nat → JVal → String → FPState → FPState
  | 0, _, _, st => st
  | fuel + 1, .obj l, parent, st => effd_entries fuel l parent st
  | _ + 1, _, _, st => st

def effd_entries : Nat → List (String × JVal) → String → FPState → FPState
  | 0, _, _, st => st
  | _ + 1, [], _, st => st
  | fuel + 1, (key, value) :: rest, parent, st =>
    effd_entries fuel rest parent (effd_step fuel key value parent st)

/-- One entry of `_extract_fields_from_dict`: `$expr` hands off to the
expression walker, other `$`-keys are skipped, a nested all-`$`-operator
document credits the dotted key itself before recursing, lists recurse
per dict item, scalars credit the dotted key. -/
def effd_step : Nat → String → JVal → String → FPState → FPState
  | 0, _, _, _, st => st
  | fuel + 1, key, value, parent, st =>
    if key = "$expr" then handle_expr_operator fuel value st
    else if lstartsWith "$".data key.data then st
    else
      let fullKey := if parent = "" then key else parent ++ "." ++ key
      match value with
      | .obj m =>
        extract_fields_from_dict fuel (.obj m) fullKey
          (if (keysOf m).all (fun k => lstartsWith "$".data k.data) then
             add_field st fullKey none
           else st)
      | .arr items => effd_items fuel items fullKey st
      | _ => add_field st fullKey none

def effd_items : Nat → List JVal → String → FPState → FPState
  | 0, _, _, st => st
  | _ + 1, [], _, st => st
  | fuel + 1, item :: rest, fk, st =>
    effd_items fuel rest fk (effd_item_step fuel item fk st)

def effd_item_step : Nat → JVal → String → FPState → FPState
  | 0, _, _, st => st
  | fuel + 1, .obj m, fk, st => extract_fields_from_dict fuel (.obj m) fk st
  | _ + 1, _, _, st => st

/-- `_extract_lookup_fields` (mongodb_field_parser.py 263-289): mark the
`as` alias computed FIRST, then credit `localField`, then `foreignField`
against the `from` collection, then walk a correlated sub-pipeline in the
context of the foreign collection, restoring the original collection at
the end. -/
def extract_lookup_fields : Nat → JVal → FPState → FPState
  | 0, _, st => st
  | fuel + 1, .obj l, st =>
    { lookup_pipeline_step fuel l
        (lookup_foreign_step l (lookup_local_step l (lookup_as_step l st))) with
      currentCollection := st.currentCollection }
  | _ + 1, _, st => st

/-- The correlated sub-pipeline walk of `_extract_lookup_fields`
(280-286): switch to the `from` collection and parse each stage. -/
def lookup_pipeline_step : Nat → List (String × JVal) → FPState → FPState
  | 0, _, st => st
  | fuel + 1, l, st =>
    match lookupJ l "pipeline", lookupJ l "from" with
    | some (.arr stages), some (.str c) =>
      pipeline_stages fuel stages { st with currentCollection := c }
    | _, _ => st

/-- The stage loop of `_parse_aggregate_query` (146-149) and of the
`$lookup` sub-pipeline walk (283-286): parse each dict stage in order. -/
def pipeline_stages : Nat → List JVal → FPState → FPState
  | 0, _, st => st
  | _ + 1, [], st => st
  | fuel + 1, stage :: rest, st =>
    pipeline_stages fuel rest (stage_step fuel stage st)

def stage_step : Nat → JVal → FPState → FPState
  | 0, _, st => st
  | fuel + 1, .obj m, st => parse_aggregate_stage fuel (.obj m) st
  | _ + 1, _, st => st
end

/-- The parser state right after `parse_query` has extracted the target
collection (mongodb_field_parser.py 31-40). -/
def initFPState (coll : String) : FPState := ⟨[(coll, [])], coll, []⟩

/-- All extracted fields, across collections. -/
def fieldsOfState (st : FPState) : List String :=
  st.collectionFields.foldr (fun p acc => p.2 ++ acc) []

/- ## C6: computed-field exclusion is exact-match only -/

/-- The invariant of the C6 analysis: the alias is marked computed and has
not been credited as a field. -/
def InvA (A : String) (st : FPState) : Prop :=
  A ∈ st.computedFields ∧ A ∉ fieldsOfState st

theorem fieldsOfState_collInsert {m : List (String × List String)}
    {c f k : String}
    (h : k ∈ (collInsert m c f).foldr (fun p acc => p.2 ++ acc) []) :
    k = f ∨ k ∈ m.foldr (fun p acc => p.2 ++ acc) [] := by
  induction m with
  | nil =>
    simp [collInsert] at h
    exact Or.inl h
  | cons hd tl ih =>
    obtain ⟨c0, fs⟩ := hd
    rw [collInsert] at h
    by_cases hc : c0 = c
    · rw [if_pos hc] at h
      simp at h
      rcases h with h | h
      · rcases mem_setAdd.mp h with h | h
        · exact Or.inr (by simp [h])
        · exact Or.inl h
      · exact Or.inr (by simp [h])
    · rw [if_neg hc] at h
      simp at h
      rcases h with h | h
      · exact Or.inr (by simp [h])
      · rcases ih (by simpa using h) with h2 | h2
        · exact Or.inl h2
        · exact Or.inr (by simp [h2])

theorem invA_add_field {A : String} {st : FPState} {f : String}
    {c : Option String} (h : InvA A st) : InvA A (add_field st f c) := by
  obtain ⟨hcomp, hfld⟩ := h
  unfold add_field
  by_cases hex : should_exclude_field st f
  · rw [if_pos hex]
    exact ⟨hcomp, hfld⟩
  · rw [if_neg hex]
    have hAf : f ≠ A := by
      intro hfa
      subst hfa
      apply hex
      simp [should_exclude_field, List.contains]
      exact Or.inr hcomp
    refine ⟨hcomp, ?_⟩
    intro hm
    rcases fieldsOfState_collInsert hm with h2 | h2
    · exact hAf h2.symm
    · exact hfld h2

theorem invA_add_computed {A : String} {st : FPState} {f : String}
    (h : InvA A st) : InvA A (add_computed_field st f) := by
  obtain ⟨hcomp, hfld⟩ := h
  exact ⟨mem_setAdd.mpr (Or.inl hcomp), hfld⟩

theorem invA_dollar_ref_fields {A : String} {m : List (String × JVal)} :
    ∀ st : FPState, InvA A st → InvA A (dollar_ref_fields m st) := by
  induction m with
  | nil => intro st h; exact h
  | cons p rest ih =>
    intro st h
    show InvA A (List.foldl _ _ (p :: rest))
    rw [List.foldl_cons]
    apply ih
    rcases p with ⟨k, v⟩
    cases v with
    | str f =>
      dsimp only
      split
      · exact invA_add_field h
      · exact h
    | num n => exact h
    | bool b => exact h
    | null => exact h
    | arr l => exact h
    | obj l => exact h

theorem invA_group_step {A : String} {key : String} {value : JVal}
    {st : FPState} (h : InvA A st) : InvA A (group_step key value st) := by
  unfold group_step
  split
  · cases value with
    | str s =>
      show InvA A (if lstartsWith "$".data s.data then
        add_field st (s.drop 1) none else st)
      split
      · exact invA_add_field h
      · exact h
    | obj m => exact invA_dollar_ref_fields _ h
    | num n => exact h
    | bool b => exact h
    | null => exact h
    | arr xs => exact h
  · cases value with
    | obj m => exact invA_dollar_ref_fields _ (invA_add_computed h)
    | str s => exact invA_add_computed h
    | num n => exact invA_add_computed h
    | bool b => exact invA_add_computed h
    | null => exact invA_add_computed h
    | arr xs => exact invA_add_computed h

theorem invA_group_entries {A : String} {l : List (String × JVal)} :
    ∀ st : FPState, InvA A st → InvA A (group_entries l st) := by
  induction l with
  | nil => intro st h; exact h
  | cons p rest ih =>
    intro st h
    obtain ⟨key, value⟩ := p
    exact ih _ (invA_group_step h)

theorem invA_extract_group_fields {A : String} {v : JVal} {st : FPState}
    (h : InvA A st) : InvA A (extract_group_fields v st) := by
  cases v with
  | obj l => exact invA_group_entries _ h
  | str s => exact h
  | num n => exact h
  | bool b => exact h
  | null => exact h
  | arr l => exact h

theorem invA_proj_step {A : String} {key : String} {value : JVal}
    {st : FPState} (h : InvA A st) : InvA A (proj_step key value st) := by
  unfold proj_step
  split
  · exact h
  · cases value with
    | num n =>
      show InvA A (if n ≠ 0 then add_field st key none else st)
      split
      · exact invA_add_field h
      · exact h
    | bool b =>
      show InvA A (if b then add_field st key none else st)
      split
      · exact invA_add_field h
      · exact h
    | str s =>
      show InvA A (if lstartsWith "$".data s.data then
        add_field st (s.drop 1) none else st)
      split
      · exact invA_add_field h
      · exact h
    | obj m => exact invA_dollar_ref_fields _ (invA_add_computed h)
    | null => exact h
    | arr xs => exact h

theorem invA_proj_entries {A : String} {l : List (String × JVal)} :
    ∀ st : FPState, InvA A st → InvA A (proj_entries l st) := by
  induction l with
  | nil => intro st h; exact h
  | cons p rest ih =>
    intro st h
    obtain ⟨key, value⟩ := p
    exact ih _ (invA_proj_step h)

theorem invA_extract_projection_fields {A : String} {v : JVal} {st : FPState}
    (h : InvA A st) : InvA A (extract_projection_fields v st) := by
  cases v with
  | obj l => exact invA_proj_entries _ h
  | str s => exact h
  | num n => exact h
  | bool b => exact h
  | null => exact h
  | arr l => exact h

theorem invA_sort_keys_add {A : String} {ks : List String} :
    ∀ st : FPState, InvA A st → InvA A (sort_keys_add ks st) := by
  induction ks with
  | nil => intro st h; exact h
  | cons k rest ih =>
    intro st h
    show InvA A (List.foldl _ _ (k :: rest))
    rw [List.foldl_cons]
    apply ih
    dsimp only
    split
    · exact h
    · exact invA_add_field h

theorem invA_unwind_field {A : String} {v : JVal} {st : FPState}
    (h : InvA A st) : InvA A (unwind_field v st) := by
  cases v with
  | str s => exact invA_add_field h
  | obj m =>
    show InvA A (match lookupJ m "path" with
      | some (.str p) => add_field st (stripDollars p) none
      | _ => st)
    split
    · exact invA_add_field h
    · exact h
  | num n => exact h
  | bool b => exact h
  | null => exact h
  | arr l => exact h

theorem invA_setCurrent {A : String} {st : FPState} {c : String}
    (h : InvA A st) : InvA A { st with currentCollection := c } := h

theorem invA_lookup_as_step {A : String} {l : List (String × JVal)}
    {st : FPState} (h : InvA A st) : InvA A (lookup_as_step l st) := by
  unfold lookup_as_step
  split
  · exact invA_add_computed h
  · exact h

theorem invA_lookup_local_step {A : String} {l : List (String × JVal)}
    {st : FPState} (h : InvA A st) : InvA A (lookup_local_step l st) := by
  unfold lookup_local_step
  split
  · exact invA_add_field h
  · exact h

theorem invA_lookup_foreign_step {A : String} {l : List (String × JVal)}
    {st : FPState} (h : InvA A st) : InvA A (lookup_foreign_step l st) := by
  unfold lookup_foreign_step
  split
  · exact invA_add_field h
  · exact h

/-- Preservation of the C6 invariant by every walker of the parser: once a
name is in the computed set and absent from the field set, no amount of
further stage processing can add it as a field (the exclusion check in
`_add_field` fires on exact membership, and the computed set only grows). -/
theorem invA_walk (A : String) : ∀ fuel : Nat,
    (∀ v st, InvA A st → InvA A (parse_aggregate_stage fuel v st)) ∧
    (∀ l st, InvA A st → InvA A (parse_stage_entries fuel l st)) ∧
    (∀ op v st, InvA A st → InvA A (parse_stage_step fuel op v st)) ∧
    (∀ v st, InvA A st → InvA A (handle_expr_operator fuel v st)) ∧
    (∀ l st, InvA A st → InvA A (handle_expr_entries fuel l st)) ∧
    (∀ v st, InvA A st → InvA A (expr_value_step fuel v st)) ∧
    (∀ l st, InvA A st → InvA A (expr_items fuel l st)) ∧
    (∀ v st, InvA A st → InvA A (expr_item_step fuel v st)) ∧
    (∀ v p st, InvA A st → InvA A (extract_fields_from_dict fuel v p st)) ∧
    (∀ l p st, InvA A st → InvA A (effd_entries fuel l p st)) ∧
    (∀ k v p st, InvA A st → InvA A (effd_step fuel k v p st)) ∧
    (∀ l p st, InvA A st → InvA A (effd_items fuel l p st)) ∧
    (∀ v p st, InvA A st → InvA A (effd_item_step fuel v p st)) ∧
    (∀ v st, InvA A st → InvA A (extract_lookup_fields fuel v st)) ∧
    (∀ l st, InvA A st → InvA A (lookup_pipeline_step fuel l st)) ∧
    (∀ l st, InvA A st → InvA A (pipeline_stages fuel l st)) ∧
    (∀ v st, InvA A st → InvA A (stage_step fuel v st)) := by
  intro fuel
  induction fuel with
  | zero =>
    exact ⟨fun _ _ h => h, fun _ _ h => h, fun _ _ _ h => h, fun _ _ h => h,
      fun _ _ h => h, fun _ _ h => h, fun _ _ h => h, fun _ _ h => h,
      fun _ _ _ h => h, fun _ _ _ h => h, fun _ _ _ _ h => h, fun _ _ _ h => h,
      fun _ _ _ h => h, fun _ _ h => h, fun _ _ h => h, fun _ _ h => h,
      fun _ _ h => h⟩
  | succ n ih =>
    obtain ⟨hPAS, hPSE, hPSS, hHEO, hHEE, hEVS, hEI, hEIS, hEFFD, hEFFDE,
      hEFFDS, hEFFDI, hEFFDIS, hELF, hLPS, hPS, hSS⟩ := ih
    refine ⟨?_, ?_, ?_, ?_, ?_, ?_, ?_, ?_, ?_, ?_, ?_, ?_, ?_, ?_, ?_, ?_, ?_⟩
    · intro v st h
      cases v with
      | obj l => exact hPSE _ _ h
      | str s => exact h
      | num m => exact h
      | bool b => exact h
      | null => exact h
      | arr l => exact h
    · intro l st h
      cases l with
      | nil => exact h
      | cons p rest =>
        obtain ⟨op, value⟩ := p
        exact hPSE _ _ (hPSS _ _ _ h)
    · intro op v st h
      show InvA A (
        if op = "$match" then
          match v with
          | .obj m =>
            if (keysOf m).contains "$expr" then
              match lookupJ m "$expr" with
              | some ev => handle_expr_operator n ev st
              | none => st
            else extract_fields_from_dict n (.obj m) "" st
          | w => extract_fields_from_dict n w "" st
        else if op = "$group" then extract_group_fields v st
        else if op = "$project" then extract_projection_fields v st
        else if op = "$lookup" then extract_lookup_fields n v st
        else if op = "$unwind" then unwind_field v st
        else if op = "$sort" then
          match v with
          | .obj m => sort_keys_add (keysOf m) st
          | _ => st
        else st)
      repeat' split
      all_goals first
        | exact h
        | exact hHEO _ _ h
        | exact hEFFD _ _ _ h
        | exact invA_extract_group_fields h
        | exact invA_extract_projection_fields h
        | exact hELF _ _ h
        | exact invA_unwind_field h
        | exact invA_sort_keys_add _ h
    · intro v st h
      cases v with
      | obj l => exact hHEE _ _ h
      | str s => exact h
      | num m => exact h
      | bool b => exact h
      | null => exact h
      | arr l => exact h
    · intro l st h
      cases l with
      | nil => exact h
      | cons p rest => exact hHEE _ _ (hEVS _ _ h)
    · intro v st h
      cases v with
      | arr items => exact hEI _ _ h
      | str s =>
        show InvA A (if lstartsWith "$".data s.data then
          (if should_exclude_field st s then st
           else add_field st (stripDollars s) none)
          else st)
        split
        · split
          · exact h
          · exact invA_add_field h
        · exact h
      | obj m => exact hEFFD _ _ _ h
      | num m => exact h
      | bool b => exact h
      | null => exact h
    · intro l st h
      cases l with
      | nil => exact h
      | cons x rest => exact hEI _ _ (hEIS _ _ h)
    · intro v st h
      cases v with
      | str s =>
        show InvA A (if lstartsWith "$".data s.data then
          (if should_exclude_field st s then st
           else add_field st (stripDollars s) none)
          else st)
        split
        · split
          · exact h
          · exact invA_add_field h
        · exact h
      | obj m => exact hEFFD _ _ _ h
      | num m => exact h
      | bool b => exact h
      | null => exact h
      | arr l => exact h
    · intro v p st h
      cases v with
      | obj l => exact hEFFDE _ _ _ h
      | str s => exact h
      | num m => exact h
      | bool b => exact h
      | null => exact h
      | arr l => exact h
    · intro l p st h
      cases l with
      | nil => exact h
      | cons e rest =>
        obtain ⟨key, value⟩ := e
        exact hEFFDE _ _ _ (hEFFDS _ _ _ _ h)
    · intro k v p st h
      show InvA A (
        if k = "$expr" then handle_expr_operator n v st
        else if lstartsWith "$".data k.data then st
        else
          let fullKey := if p = "" then k else p ++ "." ++ k
          match v with
          | .obj m =>
            extract_fields_from_dict n (.obj m) fullKey
              (if (keysOf m).all (fun k2 => lstartsWith "$".data k2.data) then
                 add_field st fullKey none
               else st)
          | .arr items => effd_items n items fullKey st
          | _ => add_field st fullKey none)
      repeat' split
      all_goals first
        | exact h
        | exact hHEO _ _ h
        | exact hEFFDI _ _ _ h
        | exact invA_add_field h
        | exact hEFFD _ _ _ (invA_add_field h)
        | exact hEFFD _ _ _ h
    · intro l p st h
      cases l with
      | nil => exact h
      | cons x rest => exact hEFFDI _ _ _ (hEFFDIS _ _ _ h)
    · intro v p st h
      cases v with
      | obj m => exact hEFFD _ _ _ h
      | str s => exact h
      | num m => exact h
      | bool b => exact h
      | null => exact h
      | arr l => exact h
    · intro v st h
      cases v with
      | obj l =>
        exact invA_setCurrent (hLPS _ _
          (invA_lookup_foreign_step (invA_lookup_local_step (invA_lookup_as_step h))))
      | str s => exact h
      | num m => exact h
      | bool b => exact h
      | null => exact h
      | arr l => exact h
    · intro l st h
      show InvA A (match lookupJ l "pipeline", lookupJ l "from" with
        | some (.arr stages), some (.str c) =>
          pipeline_stages n stages { st with currentCollection := c }
        | _, _ => st)
      split
      · exact hPS _ _ (invA_setCurrent h)
      · exact h
    · intro l st h
      cases l with
      | nil => exact h
      | cons x rest => exact hPS _ _ (hSS _ _ h)
    · intro v st h
      cases v with
      | obj m => exact hPAS _ _ h
      | str s => exact h
      | num m => exact h
      | bool b => exact h
      | null => exact h
      | arr l => exact h

/-- C6 (amended): once a name is in the parser's computed set — which is
how a `$lookup.as` alias and the `$group`/`$project` computed output keys
are recorded, before any later stage is processed — no further stage
processing ever adds a field path EXACTLY equal to that name, even if it
is referenced verbatim downstream; but paths merely prefixed by the alias
(such as `Docs1.Name`) are NOT excluded, because `_should_exclude_field`
tests exact set membership only (see the counterexample). -/
theorem c6_computed_exact_exclusion (fuel : Nat) (stages : List JVal)
    (st : FPState) (A : String) (hA : A ∈ st.computedFields)
    (hflds : A ∉ fieldsOfState st) :
    A ∈ (pipeline_stages fuel stages st).computedFields ∧
    A ∉ fieldsOfState (pipeline_stages fuel stages st) :=
  (invA_walk A fuel).2.2.2.2.2.2.2.2.2.2.2.2.2.2.2.1 stages st ⟨hA, hflds⟩

/-- C6 counterexample: a pipeline with `$lookup … as: "Docs1"` followed by
a `$project` referencing `$Docs1.Name`.  The extracted field set contains
`"Docs1.Name"`, a path prefixed by the alias, contradicting the claim that
no alias-prefixed path ever appears; the alias itself is in the computed
set. -/
theorem c6_counterexample :
    "Docs1.Name" ∈ fieldsOfState (pipeline_stages 10
      [JVal.obj [("$lookup", JVal.obj [("from", JVal.str "B"),
        ("localField", JVal.str "x"), ("foreignField", JVal.str "y"),
        ("as", JVal.str "Docs1")])],
       JVal.obj [("$project", JVal.obj [("Name", JVal.str "$Docs1.Name")])]]
      (initFPState "A")) ∧
    lstartsWith "Docs1.".data "Docs1.Name".data = true ∧
    "Docs1" ∈ (pipeline_stages 10
      [JVal.obj [("$lookup", JVal.obj [("from", JVal.str "B"),
        ("localField", JVal.str "x"), ("foreignField", JVal.str "y"),
        ("as", JVal.str "Docs1")])],
       JVal.obj [("$project", JVal.obj [("Name", JVal.str "$Docs1.Name")])]]
      (initFPState "A")).computedFields :=
  ⟨by decide, by decide, by decide⟩

/-- Witness for `c6_computed_exact_exclusion`: `"Docs1"` is computed, the
next stage references `$Docs1` verbatim, and the alias still never enters
the field set. -/
theorem c6_witness :
    "Docs1" ∈ (pipeline_stages 5
      [JVal.obj [("$project", JVal.obj [("Z", JVal.str "$Docs1")])]]
      ⟨[("A", ["x"])], "A", ["Docs1"]⟩).computedFields ∧
    "Docs1" ∉ fieldsOfState (pipeline_stages 5
      [JVal.obj [("$project", JVal.obj [("Z", JVal.str "$Docs1")])]]
      ⟨[("A", ["x"])], "A", ["Docs1"]⟩) :=
  c6_computed_exact_exclusion 5 _ _ _ (by decide) (by decide)

/- ## C8: the aggregator (`AccuracyCalculator.calculate`) -/

/-- One dataset example (db id, natural-language query, gold and predicted
MQL). -/
structure ExampleRec where
  db_id : String
  NLQ : String
  target : String
  prediction : String

/-- `_format_example` (metric2.py 476-484): the record appended to the
failure list; `flag` is `acc['EX'] == 1`. -/
structure WrongExample where
  NLQ : String
  db_id : String
  prediction : String
  target : String
  flag : Bool

def format_example (ex : ExampleRec) (acc : Metrics) : WrongExample :=
  ⟨ex.NLQ, ex.db_id, ex.prediction, ex.target, acc.EX⟩

/-- Per-metric running totals (true counted as 1). -/
structure MetricSums where
  EX : Nat
  EM : Nat
  QSM : Nat
  QFC : Nat
  EFM : Nat
  EVM : Nat

/-- The main loop of `calculate` (metric2.py 512-529): invoke the
comparator once per example, accumulate 0/1 flags, and append the examples
whose EX is 0 to the failure list, in order.  (The embedded comparator is
total, so the per-example `except` can not trigger.) -/
def calcLoop (cmp : ExampleRec → Metrics) :
    List ExampleRec → MetricSums → List WrongExample →
    MetricSums × List WrongExample
  | [], sums, wrong => (sums, wrong)
  | ex :: rest, sums, wrong =>
    let m := cmp ex
    calcLoop cmp rest
      ⟨sums.EX + (if m.EX then 1 else 0), sums.EM + (if m.EM then 1 else 0),
       sums.QSM + (if m.QSM then 1 else 0), sums.QFC + (if m.QFC then 1 else 0),
       sums.EFM + (if m.EFM then 1 else 0), sums.EVM + (if m.EVM then 1 else 0)⟩
      (if m.EX = false then wrong ++ [format_example ex m] else wrong)

/-- The six mean rates, as rationals. -/
structure MeanMetrics where
  EX : ℚ
  EM : ℚ
  QSM : ℚ
  QFC : ℚ
  EFM : ℚ
  EVM : ℚ

/-- `AccuracyCalculator.calculate` (metric2.py 501-553; metric.py 186-230
computes the same totals): run the loop, then divide each sum by the
dataset size (`0.0` for an empty dataset). -/
def calculate (outco : String → String → ShellOutcome)
    (jsonParse : String → Option JVal) (schema : String → Option (List String))
    (examples : List ExampleRec) : MeanMetrics × List WrongExample :=
  let cmp := fun ex : ExampleRec =>
    compare outco jsonParse schema ex.target ex.prediction ex.db_id
  let r := calcLoop cmp examples ⟨0, 0, 0, 0, 0, 0⟩ []
  let total := examples.length
  let mean := fun s : Nat => if total = 0 then (0 : ℚ) else (s : ℚ) / (total : ℚ)
  (⟨mean r.1.EX, mean r.1.EM, mean r.1.QSM, mean r.1.QFC,
    mean r.1.EFM, mean r.1.EVM⟩, r.2)

theorem calcLoop_spec (cmp : ExampleRec → Metrics) :
    ∀ (l : List ExampleRec) (sums : MetricSums) (wrong : List WrongExample),
      (calcLoop cmp l sums wrong).1.EX = sums.EX + l.countP (fun ex => (cmp ex).EX) ∧
      (calcLoop cmp l sums wrong).1.EM = sums.EM + l.countP (fun ex => (cmp ex).EM) ∧
      (calcLoop cmp l sums wrong).1.QSM = sums.QSM + l.countP (fun ex => (cmp ex).QSM) ∧
      (calcLoop cmp l sums wrong).1.QFC = sums.QFC + l.countP (fun ex => (cmp ex).QFC) ∧
      (calcLoop cmp l sums wrong).1.EFM = sums.EFM + l.countP (fun ex => (cmp ex).EFM) ∧
      (calcLoop cmp l sums wrong).1.EVM = sums.EVM + l.countP (fun ex => (cmp ex).EVM) ∧
      (calcLoop cmp l sums wrong).2 =
        wrong ++ (l.filter (fun ex => (cmp ex).EX = false)).map
          (fun ex => format_example ex (cmp ex)) := by
  intro l
  induction l with
  | nil =>
    intro sums wrong
    refine ⟨?_, ?_, ?_, ?_, ?_, ?_, ?_⟩ <;> simp [calcLoop]
  | cons ex rest ih =>
    intro sums wrong
    rw [calcLoop]
    obtain ⟨h1, h2, h3, h4, h5, h6, h7⟩ := ih _ _
    refine ⟨?_, ?_, ?_, ?_, ?_, ?_, ?_⟩
    · rw [h1]
      simp only [List.countP_cons]
      cases hx : (cmp ex).EX <;> simp [hx] <;> omega
    · rw [h2]
      simp only [List.countP_cons]
      cases hx : (cmp ex).EM <;> simp [hx] <;> omega
    · rw [h3]
      simp only [List.countP_cons]
      cases hx : (cmp ex).QSM <;> simp [hx] <;> omega
    · rw [h4]
      simp only [List.countP_cons]
      cases hx : (cmp ex).QFC <;> simp [hx] <;> omega
    · rw [h5]
      simp only [List.countP_cons]
      cases hx : (cmp ex).EFM <;> simp [hx] <;> omega
    · rw [h6]
      simp only [List.countP_cons]
      cases hx : (cmp ex).EVM <;> simp [hx] <;> omega
    · rw [h7]
      cases hx : (cmp ex).EX <;> simp [hx, List.filter_cons]

theorem mean_bounds (c n : Nat) (hcn : c ≤ n) (hn : 0 < n) :
    0 ≤ (c : ℚ) / (n : ℚ) ∧ (c : ℚ) / (n : ℚ) ≤ 1 := by
  have hn0 : (0 : ℚ) < (n : ℚ) := by exact_mod_cast hn
  constructor
  · positivity
  · rw [div_le_one hn0]
    exact_mod_cast hcn

/-- C8: the aggregator invokes the comparator once per example, sums each
of the six metrics counting true as 1, divides by the dataset size, so
each reported mean equals (number of examples scoring 1)/(size) and lies
in [0,1]; and exactly the examples whose metric vector has EX = 0 are
appended (in order) to the persisted failure list. -/
theorem c8_aggregator (outco : String → String → ShellOutcome)
    (jsonParse : String → Option JVal) (schema : String → Option (List String))
    (examples : List ExampleRec) (hne : examples ≠ []) :
    ((calculate outco jsonParse schema examples).1.EX =
        (examples.countP (fun ex =>
          (compare outco jsonParse schema ex.target ex.prediction ex.db_id).EX) : ℚ) /
          (examples.length : ℚ) ∧
      0 ≤ (calculate outco jsonParse schema examples).1.EX ∧
      (calculate outco jsonParse schema examples).1.EX ≤ 1) ∧
    ((calculate outco jsonParse schema examples).1.EM =
        (examples.countP (fun ex =>
          (compare outco jsonParse schema ex.target ex.prediction ex.db_id).EM) : ℚ) /
          (examples.length : ℚ) ∧
      0 ≤ (calculate outco jsonParse schema examples).1.EM ∧
      (calculate outco jsonParse schema examples).1.EM ≤ 1) ∧
    ((calculate outco jsonParse schema examples).1.QSM =
        (examples.countP (fun ex =>
          (compare outco jsonParse schema ex.target ex.prediction ex.db_id).QSM) : ℚ) /
          (examples.length : ℚ) ∧
      0 ≤ (calculate outco jsonParse schema examples).1.QSM ∧
      (calculate outco jsonParse schema examples).1.QSM ≤ 1) ∧
    ((calculate outco jsonParse schema examples).1.QFC =
        (examples.countP (fun ex =>
          (compare outco jsonParse schema ex.target ex.prediction ex.db_id).QFC) : ℚ) /
          (examples.length : ℚ) ∧
      0 ≤ (calculate outco jsonParse schema examples).1.QFC ∧
      (calculate outco jsonParse schema examples).1.QFC ≤ 1) ∧
    ((calculate outco jsonParse schema examples).1.EFM =
        (examples.countP (fun ex =>
          (compare outco jsonParse schema ex.target ex.prediction ex.db_id).EFM) : ℚ) /
          (examples.length : ℚ) ∧
      0 ≤ (calculate outco jsonParse schema examples).1.EFM ∧
      (calculate outco jsonParse schema examples).1.EFM ≤ 1) ∧
    ((calculate outco jsonParse schema examples).1.EVM =
        (examples.countP (fun ex =>
          (compare outco jsonParse schema ex.target ex.prediction ex.db_id).EVM) : ℚ) /
          (examples.length : ℚ) ∧
      0 ≤ (calculate outco jsonParse schema examples).1.EVM ∧
      (calculate outco jsonParse schema examples).1.EVM ≤ 1) ∧
    (calculate outco jsonParse schema examples).2 =
      (examples.filter (fun ex =>
        (compare outco jsonParse schema ex.target ex.prediction ex.db_id).EX = false)).map
        (fun ex => format_example ex
          (compare outco jsonParse schema ex.target ex.prediction ex.db_id)) := by
  have hlen : examples.length ≠ 0 := fun h0 => hne (List.length_eq_zero.mp h0)
  have hpos : 0 < examples.length := Nat.pos_of_ne_zero hlen
  have hspec := calcLoop_spec
    (fun ex : ExampleRec =>
      compare outco jsonParse schema ex.target ex.prediction ex.db_id)
    examples ⟨0, 0, 0, 0, 0, 0⟩ []
  obtain ⟨h1, h2, h3, h4, h5, h6, h7⟩ := hspec
  refine ⟨⟨?_, ?_⟩, ⟨?_, ?_⟩, ⟨?_, ?_⟩, ⟨?_, ?_⟩, ⟨?_, ?_⟩, ⟨?_, ?_⟩, ?_⟩
  · show (if examples.length = 0 then (0 : ℚ) else _) = _
    rw [if_neg hlen, h1]
    simp
  · rw [show (calculate outco jsonParse schema examples).1.EX =
        (if examples.length = 0 then (0 : ℚ) else
          (((calcLoop (fun ex : ExampleRec =>
            compare outco jsonParse schema ex.target ex.prediction ex.db_id)
            examples ⟨0, 0, 0, 0, 0, 0⟩ []).1.EX : ℚ) / (examples.length : ℚ)))
        from rfl, if_neg hlen, h1]
    simp only [Nat.zero_add]
    exact mean_bounds _ _ (List.countP_le_length _) hpos
  · show (if examples.length = 0 then (0 : ℚ) else _) = _
    rw [if_neg hlen, h2]
    simp
  · rw [show (calculate outco jsonParse schema examples).1.EM =
        (if examples.length = 0 then (0 : ℚ) else
          (((calcLoop (fun ex : ExampleRec =>
            compare outco jsonParse schema ex.target ex.prediction ex.db_id)
            examples ⟨0, 0, 0, 0, 0, 0⟩ []).1.EM : ℚ) / (examples.length : ℚ)))
        from rfl, if_neg hlen, h2]
    simp only [Nat.zero_add]
    exact mean_bounds _ _ (List.countP_le_length _) hpos
  · show (if examples.length = 0 then (0 : ℚ) else _) = _
    rw [if_neg hlen, h3]
    simp
  · rw [show (calculate outco jsonParse schema examples).1.QSM =
        (if examples.length = 0 then (0 : ℚ) else
          (((calcLoop (fun ex : ExampleRec =>
            compare outco jsonParse schema ex.target ex.prediction ex.db_id)
            examples ⟨0, 0, 0, 0, 0, 0⟩ []).1.QSM : ℚ) / (examples.length : ℚ)))
        from rfl, if_neg hlen, h3]
    simp only [Nat.zero_add]
    exact mean_bounds _ _ (List.countP_le_length _) hpos
  · show (if examples.length = 0 then (0 : ℚ) else _) = _
    rw [if_neg hlen, h4]
    simp
  · rw [show (calculate outco jsonParse schema examples).1.QFC =
        (if examples.length = 0 then (0 : ℚ) else
          (((calcLoop (fun ex : ExampleRec =>
            compare outco jsonParse schema ex.target ex.prediction ex.db_id)
            examples ⟨0, 0, 0, 0, 0, 0⟩ []).1.QFC : ℚ) / (examples.length : ℚ)))
        from rfl, if_neg hlen, h4]
    simp only [Nat.zero_add]
    exact mean_bounds _ _ (List.countP_le_length _) hpos
  · show (if examples.length = 0 then (0 : ℚ) else _) = _
    rw [if_neg hlen, h5]
    simp
  · rw [show (calculate outco jsonParse schema examples).1.EFM =
        (if examples.length = 0 then (0 : ℚ) else
          (((calcLoop (fun ex : ExampleRec =>
            compare outco jsonParse schema ex.target ex.prediction ex.db_id)
            examples ⟨0, 0, 0, 0, 0, 0⟩ []).1.EFM : ℚ) / (examples.length : ℚ)))
        from rfl, if_neg hlen, h5]
    simp only [Nat.zero_add]
    exact mean_bounds _ _ (List.countP_le_length _) hpos
  · show (if examples.length = 0 then (0 : ℚ) else _) = _
    rw [if_neg hlen, h6]
    simp
  · rw [show (calculate outco jsonParse schema examples).1.EVM =
        (if examples.length = 0 then (0 : ℚ) else
          (((calcLoop (fun ex : ExampleRec =>
            compare outco jsonParse schema ex.target ex.prediction ex.db_id)
            examples ⟨0, 0, 0, 0, 0, 0⟩ []).1.EVM : ℚ) / (examples.length : ℚ)))
        from rfl, if_neg hlen, h6]
    simp only [Nat.zero_add]
    exact mean_bounds _ _ (List.countP_le_length _) hpos
  · rw [show (calculate outco jsonParse schema examples).2 =
        (calcLoop (fun ex : ExampleRec =>
          compare outco jsonParse schema ex.target ex.prediction ex.db_id)
          examples ⟨0, 0, 0, 0, 0, 0⟩ []).2 from rfl, h7]
    simp

theorem c8_witness :
    ([(⟨"d", "q", "t", "p"⟩ : ExampleRec)] : List ExampleRec) ≠ [] ∧
    (0 ≤ (calculate (fun _ _ => ShellOutcome.timeout) (fun _ => none)
        (fun _ => none) [⟨"d", "q", "t", "p"⟩]).1.EX ∧
      (calculate (fun _ _ => ShellOutcome.timeout) (fun _ => none)
        (fun _ => none) [⟨"d", "q", "t", "p"⟩]).1.EX ≤ 1) :=
  ⟨List.cons_ne_nil _ _,
    ⟨(c8_aggregator (fun _ _ => ShellOutcome.timeout) (fun _ => none)
        (fun _ => none) [⟨"d", "q", "t", "p"⟩] (List.cons_ne_nil _ _)).1.2.1,
      (c8_aggregator (fun _ _ => ShellOutcome.timeout) (fun _ => none)
        (fun _ => none) [⟨"d", "q", "t", "p"⟩] (List.cons_ne_nil _ _)).1.2.2⟩⟩
